import Mathlib

/-
Verification development for the dvmax batch materialization pipeline.

Shallow embedding of the core of
  src/dataprep/features/aggregation/ticker_batch_runner.py
  src/dataprep/features/aggregation/validate_dynamic_row.py
over an idealized model of polars DataFrames:

* numeric cell values are modelled as exact rationals (the code rounds every
  numeric column to 2 decimals and casts to Float32 before persisting; the
  rounding arithmetic is modelled exactly over the rationals, in the rounding
  mode of Rust's f64::round, i.e. half away from zero, which polars round uses);
* a DataFrame is a column list (name and dtype, ordered) plus a row list,
  each row a positional cell list;
* `DataFrame.unique(subset=["as_of"])` is called by the source without a
  `keep` argument; polars' default `keep="any"` gives no guarantee which of
  the duplicate rows is kept.  The model fixes the keep-first resolution
  (the first occurrence in concatenation order survives), which is one
  admissible behaviour of `keep="any"`;
* parquet writing is modelled as a deterministic serialization of the frame;
  `os.path.getsize` becomes the length of that serialization.  The source
  compares file sizes (not file contents) when deciding the `changed` flag.
-/

namespace DVMax

/-- Polars dtypes used by the pipeline (the numeric list mirrors
`is_numeric_dtype` in ticker_batch_runner.py). -/
inductive PType where
  | tNull
  | tBool
  | tUtf8
  | tDate
  | tFloat32
  | tFloat64
  | tInt8
  | tInt16
  | tInt32
  | tInt64
  | tUInt8
  | tUInt16
  | tUInt32
  | tUInt64
deriving DecidableEq

/-- `is_numeric_dtype` from ticker_batch_runner.py: Float32/Float64, the
signed and unsigned integer types; Date, Boolean, Utf8 and Null are not
numeric. -/
def is_numeric_dtype : PType → Bool
  | PType.tFloat32 => true
  | PType.tFloat64 => true
  | PType.tInt8 => true
  | PType.tInt16 => true
  | PType.tInt32 => true
  | PType.tInt64 => true
  | PType.tUInt8 => true
  | PType.tUInt16 => true
  | PType.tUInt32 => true
  | PType.tUInt64 => true
  | _ => false

/-- A polars cell value: null, an (idealized, exact rational) number, a
string, or a boolean. -/
inductive PValue where
  | null
  | num (q : ℚ)
  | str (s : String)
  | bool (b : Bool)
deriving DecidableEq

/-- Rounding half away from zero (the mode of Rust's f64::round, used by
polars Series.round). -/
def roundHalfAwayFromZero (q : ℚ) : ℤ :=
  if 0 ≤ q then ⌊q + 1/2⌋ else -⌊-q + 1/2⌋

/-- `.round(2)`: round to two decimal places, half away from zero. -/
def round2 (q : ℚ) : ℚ := (roundHalfAwayFromZero (q * 100) : ℚ) / 100

/-- A polars DataFrame: ordered columns (name, dtype) and positional rows. -/
structure PFrame where
  cols : List (String × PType)
  rows : List (List PValue)
deriving DecidableEq

/-- Column names of a frame, in order. -/
def colNames (f : PFrame) : List String := f.cols.map Prod.fst

/-- `df.height`. -/
def PFrame.height (f : PFrame) : Nat := f.rows.length

/-- Dtype of a named column (Null when the column is absent). -/
def dtypeOf (f : PFrame) (c : String) : PType :=
  match f.cols.lookup c with
  | some t => t
  | none => PType.tNull

/-- `c in df.columns`. -/
def hasCol (f : PFrame) (c : String) : Bool := (colNames f).contains c

/-- Positional lookup of a cell by column name. -/
def getVal : List (String × PType) → List PValue → String → PValue
  | [], _, _ => PValue.null
  | _, [], _ => PValue.null
  | p :: ps, v :: vs, c => if p.1 = c then v else getVal ps vs c

/-- Well-formedness of the frame model: distinct column names, and every row
has exactly one cell per column. -/
def FrameOK (f : PFrame) : Prop :=
  (colNames f).Nodup ∧ ∀ r ∈ f.rows, r.length = f.cols.length

instance (f : PFrame) : Decidable (FrameOK f) := by
  unfold FrameOK
  infer_instance

/-- Shape part of well-formedness: every row has one cell per column. -/
def RowsOK (f : PFrame) : Prop := ∀ r ∈ f.rows, r.length = f.cols.length

instance (f : PFrame) : Decidable (RowsOK f) := by
  unfold RowsOK
  infer_instance

/-- Lexicographic string comparison on the character lists (the order of
python's `sorted` on ASCII column names). -/
def strLt (a b : String) : Bool := decide (a.data < b.data)

/-- Insert a name into a sorted duplicate-free list, keeping it sorted and
duplicate-free. -/
def sInsert (x : String) : List String → List String
  | [] => [x]
  | y :: ys =>
      if strLt x y then x :: y :: ys
      else if x = y then y :: ys
      else y :: sInsert x ys

/-- `sorted(set(l1) | set(l2))` from python: the sorted duplicate-free list
of all names occurring in either argument. -/
def sortedUnionNames (l1 l2 : List String) : List String :=
  (l1 ++ l2).foldr sInsert []

/-- `fill_missing_columns` from ticker_batch_runner.py: add missing columns
as all-null series of the same height (dtype Null), then select exactly
`allCols` in order. -/
def fill_missing_columns (f : PFrame) (allCols : List String) : PFrame :=
  { cols := allCols.map (fun c => (c, if hasCol f c then dtypeOf f c else PType.tNull)),
    rows := f.rows.map (fun r =>
      allCols.map (fun c => if hasCol f c then getVal f.cols r c else PValue.null)) }

/-- Effect of `pl.col(c).round(2).cast(pl.Float32)` on one cell of a numeric
column (nulls stay null; the Float32 cast is value-preserving in the
rational idealization). -/
def roundCastCell (t : PType) (v : PValue) : PValue :=
  if is_numeric_dtype t then
    match v with
    | PValue.num q => PValue.num (round2 q)
    | x => x
  else v

/-- `cast_and_round_numeric` from ticker_batch_runner.py: every numeric
column is rounded to 2 decimals and cast to Float32; other columns are kept
untouched. -/
def cast_and_round_numeric (f : PFrame) : PFrame :=
  { cols := f.cols.map (fun p => (p.1, if is_numeric_dtype p.2 then PType.tFloat32 else p.2)),
    rows := f.rows.map (fun r => List.zipWith (fun p v => roundCastCell p.2 v) f.cols r) }

/-- Deterministic rendering of a rational (stands in for the numeral text a
serializer would produce). -/
def ratRender (q : ℚ) : String := toString q

/-- Casting one cell to a target dtype.  Nulls stay null; numbers are kept
(numeric-to-numeric casts are value-preserving in the idealization) or
stringified for Utf8 targets; strings are kept (the pipeline never casts a
string column to a numeric dtype: the Utf8 branch of the target computation
fires first). -/
def castValue (t : PType) (v : PValue) : PValue :=
  match v with
  | PValue.null => PValue.null
  | PValue.num q => if t = PType.tUtf8 then PValue.str (ratRender q) else PValue.num q
  | PValue.str s => PValue.str s
  | PValue.bool b =>
      if t = PType.tUtf8 then PValue.str (if b then "true" else "false")
      else if is_numeric_dtype t then PValue.num (if b then 1 else 0)
      else PValue.bool b

/-- `df.cast(schema)`: columns named by the schema change dtype and their
cells are cast; other columns are untouched. -/
def castFrame (f : PFrame) (schema : List (String × PType)) : PFrame :=
  { cols := f.cols.map (fun p =>
      (p.1, match schema.lookup p.1 with
            | some t => t
            | none => p.2)),
    rows := f.rows.map (fun r => List.zipWith (fun p v =>
      match schema.lookup p.1 with
      | some t => castValue t v
      | none => v) f.cols r) }

/-- The per-column target dtype of the harmonization step of
`save_or_append` (lines 326-345 of ticker_batch_runner.py), consulted only
when the two sides disagree: both numeric goes to Float32; a Null side
adopts the other side; a Utf8 side wins; a Boolean side wins; otherwise the
existing side's dtype. -/
def castTarget (de dn : PType) : PType :=
  if is_numeric_dtype de && is_numeric_dtype dn then PType.tFloat32
  else if de = PType.tNull ∧ dn ≠ PType.tNull then dn
  else if dn = PType.tNull ∧ de ≠ PType.tNull then de
  else if de = PType.tUtf8 ∨ dn = PType.tUtf8 then PType.tUtf8
  else if de = PType.tBool ∨ dn = PType.tBool then PType.tBool
  else de

/-- The cast schema built by `save_or_append`: an entry per column on which
the aligned existing table and the aligned new batch disagree. -/
def buildCastSchema (allCols : List String) (fexist fnew : PFrame) : List (String × PType) :=
  allCols.filterMap (fun c =>
    let de := dtypeOf fexist c
    let dn := dtypeOf fnew c
    if de = dn then none else some (c, castTarget de dn))

/-- Append a constant column (a `with_columns(lit(v).alias(c))`). -/
def addConstCol (f : PFrame) (c : String) (t : PType) (v : PValue) : PFrame :=
  { cols := f.cols ++ [(c, t)], rows := f.rows.map (fun r => r ++ [v]) }

/-- Lines 313-315 of ticker_batch_runner.py, for one column: ensure a
validation column exists on the existing table, as Utf8 empty strings. -/
def ensureValidationCol (f : PFrame) (c : String) : PFrame :=
  if hasCol f c then f else addConstCol f c PType.tUtf8 (PValue.str "")

/-- Lines 313-315 of ticker_batch_runner.py: ensure `validation_status` and
`violations` exist on the existing table. -/
def ensureValidationCols (f : PFrame) : PFrame :=
  ensureValidationCol (ensureValidationCol f "validation_status") "violations"

/-- The `as_of` cell of a row. -/
def asOfCell (cols : List (String × PType)) (r : List PValue) : PValue :=
  getVal cols r "as_of"

/-- Fuelled helper for `uniqueByAsOf` (the fuel makes the recursion
structural; any fuel at least the list length gives the same result). -/
def uniqueByAsOfFuel (cols : List (String × PType)) :
    Nat → List (List PValue) → List (List PValue)
  | 0, _ => []
  | _, [] => []
  | fuel+1, r :: rs =>
      r :: uniqueByAsOfFuel cols fuel
        (rs.filter (fun x => asOfCell cols x != asOfCell cols r))

/-- `unique(subset=["as_of"])` in the keep-first resolution: of the rows
sharing an `as_of` value, the first in order survives.  (The source passes
no `keep` argument; polars' default `keep="any"` promises no particular
survivor, and keep-first is one admissible resolution.) -/
def uniqueByAsOf (cols : List (String × PType)) (l : List (List PValue)) :
    List (List PValue) :=
  uniqueByAsOfFuel cols l.length l

/-- `pl.coalesce([pl.col(c).cast(pl.Utf8), pl.lit("")])` on one cell. -/
def coalesceEmpty (v : PValue) : PValue :=
  match castValue PType.tUtf8 v with
  | PValue.null => PValue.str ""
  | w => w

/-- Lines 354-366 of ticker_batch_runner.py, for one validation column of
the merged table: if present, cast to Utf8 and replace nulls by the empty
string; otherwise append it as an empty-string column. -/
def coalesceCol (f : PFrame) (c : String) : PFrame :=
  if hasCol f c then
    { cols := f.cols.map (fun p => (p.1, if p.1 = c then PType.tUtf8 else p.2)),
      rows := f.rows.map (fun r => List.zipWith (fun p v =>
        if p.1 = c then coalesceEmpty v else v) f.cols r) }
  else addConstCol f c PType.tUtf8 (PValue.str "")

/-- The final validation-column guarantee of `save_or_append`. -/
def coalesceValidationCols (f : PFrame) : PFrame :=
  coalesceCol (coalesceCol f "validation_status") "violations"

/-- Sort key used by `df.sort("as_of")` (as_of cells are dates, modelled as
numbers). -/
def asOfQ (cols : List (String × PType)) (r : List PValue) : ℚ :=
  match asOfCell cols r with
  | PValue.num q => q
  | _ => 0

/-- Insertion into a row list sorted by as_of. -/
def insertByAsOf (cols : List (String × PType)) (r : List PValue) :
    List (List PValue) → List (List PValue)
  | [] => [r]
  | x :: xs =>
      if asOfQ cols r ≤ asOfQ cols x then r :: x :: xs
      else x :: insertByAsOf cols r xs

/-- Insertion sort of the rows by as_of (the merged tables have distinct
as_of keys, so any correct sort produces this result). -/
def sortRowsByAsOf (cols : List (String × PType)) : List (List PValue) → List (List PValue)
  | [] => []
  | r :: rs => insertByAsOf cols r (sortRowsByAsOf cols rs)

/-- `df.sort("as_of")`. -/
def sortFrameByAsOf (f : PFrame) : PFrame :=
  { cols := f.cols, rows := sortRowsByAsOf f.cols f.rows }

/-- The two aligned frames of `save_or_append` (lines 313-324): the existing
table with validation columns ensured, and both sides filled to the sorted
union of the column names. -/
def alignStage (e0 n0 : PFrame) : PFrame × PFrame :=
  let e1 := ensureValidationCols e0
  let u := sortedUnionNames (colNames n0) (colNames e1)
  (fill_missing_columns e1 u, fill_missing_columns n0 u)

/-- The merged table computed by the merge branch of `save_or_append`
(lines 309-373 of ticker_batch_runner.py): ensure validation columns on the
existing side, align columns to the sorted union, round and cast numerics on
both sides, harmonize the remaining dtype mismatches, concatenate
existing-then-new, deduplicate by as_of (keep-first resolution), guarantee
the validation columns, and sort by as_of. -/
def mergePipeline (e0 n0 : PFrame) : PFrame :=
  let e1 := ensureValidationCols e0
  let u := sortedUnionNames (colNames n0) (colNames e1)
  let n1 := fill_missing_columns n0 u
  let e2 := fill_missing_columns e1 u
  let n2 := cast_and_round_numeric n1
  let e3 := cast_and_round_numeric e2
  let sch := buildCastSchema u e3 n2
  let n3 := castFrame n2 sch
  let e4 := castFrame e3 sch
  let comb : PFrame := { cols := e4.cols, rows := uniqueByAsOf e4.cols (e4.rows ++ n3.rows) }
  sortFrameByAsOf (coalesceValidationCols comb)

/-- Dtype tag for the serialization model. -/
def ptypeName : PType → String
  | PType.tNull => "null"
  | PType.tBool => "bool"
  | PType.tUtf8 => "str"
  | PType.tDate => "date"
  | PType.tFloat32 => "f32"
  | PType.tFloat64 => "f64"
  | PType.tInt8 => "i8"
  | PType.tInt16 => "i16"
  | PType.tInt32 => "i32"
  | PType.tInt64 => "i64"
  | PType.tUInt8 => "u8"
  | PType.tUInt16 => "u16"
  | PType.tUInt32 => "u32"
  | PType.tUInt64 => "u64"

/-- Cell rendering for the serialization model. -/
def renderValue : PValue → String
  | PValue.null => "<null>"
  | PValue.num q => ratRender q
  | PValue.str s => "s:" ++ s
  | PValue.bool b => if b then "true" else "false"

/-- Deterministic serialization of a frame (stands in for the parquet bytes
written by `write_parquet`). -/
def serializeFrame (f : PFrame) : String :=
  String.intercalate "|" (f.cols.map (fun p => p.1 ++ ":" ++ ptypeName p.2))
    ++ "#" ++ String.intercalate "|" (f.rows.map (fun r =>
      String.intercalate "," (r.map renderValue)))

/-- `os.path.getsize` of the serialized frame. -/
def byteSize (f : PFrame) : Nat := (serializeFrame f).length

/-- Result of `save_or_append`: the table written to disk and the returned
`changed` flag. -/
structure SaveResult where
  table : PFrame
  changed : Bool
deriving DecidableEq

/-- `save_or_append(df, ticker, merge_with_existing)` against an in-memory
file store (`none` models a missing per-ticker file).  In the merge branch
with an existing file, `changed` is true when the merged height differs from
the pre-merge height, and otherwise compares the serialized sizes of the new
and old file contents (the source compares `os.path.getsize`, not bytes).
Without an existing file, or in overwrite mode over an existing file, the
write always reports `changed = true` (a missing file makes the size
comparison raise FileNotFoundError, handled as not-same). -/
def save_or_append (store : Option PFrame) (df : PFrame) (mergeWithExisting : Bool) :
    SaveResult :=
  match store, mergeWithExisting with
  | some e0, true =>
      let final := mergePipeline e0 df
      if final.height ≠ e0.height then { table := final, changed := true }
      else { table := final, changed := byteSize final ≠ byteSize e0 }
  | some _, false =>
      { table := sortFrameByAsOf (cast_and_round_numeric df), changed := true }
  | none, _ =>
      { table := sortFrameByAsOf (cast_and_round_numeric df), changed := true }

/-! ## Validator (validate_dynamic_row.py) -/

/-- `FEATURE_RANGES` from validate_dynamic_row.py, in source order. -/
def featureRanges : List (String × ℚ × ℚ) :=
  [("6m_return", -1, 10),
   ("12m_return", -1, 20),
   ("volatility", 0, 3),
   ("max_drawdown_1y", 0, 1),
   ("sector_relative_6m", -1, 1),
   ("sma_50_200_delta", -1, 1),
   ("net_debt_to_ebitda", -10, 20),
   ("ebit_interest_cover", 0, 200),
   ("ebit_interest_cover_capped", 0, 200),
   ("eps_cagr_3y", -1, 5),
   ("fcf_cagr_3y", -1, 5),
   ("dividend_yield", 0, 1/4),
   ("dividend_cagr_3y", -1, 3),
   ("dividend_cagr_5y", -1, 3),
   ("yield_vs_5y_median", -1/5, 1/5),
   ("pe_ratio", 0, 300),
   ("pfcf_ratio", 0, 300),
   ("payout_ratio", 0, 2)]

/-- `_LOWER_INCLUSIVE` from validate_dynamic_row.py. -/
def lowerInclusive : List String :=
  ["dividend_yield", "max_drawdown_1y", "volatility", "payout_ratio",
   "pe_ratio", "pfcf_ratio", "ebit_interest_cover", "ebit_interest_cover_capped"]

/-- `_REL_JUMP_LIMIT` from validate_dynamic_row.py, in source order. -/
def relJumpLimits : List (String × ℚ) :=
  [("pfcf_ratio", 15), ("net_debt_to_ebitda", 25), ("dividend_yield", 10),
   ("pe_ratio", 12), ("payout_ratio", 5), ("volatility", 3)]

/-- `float(val)` on the validator's data domain: numbers convert to
themselves, booleans to 0/1; nulls and strings do not convert (a numeric
string would convert in python; the validator's domain hypothesis below
excludes strings from the consulted numeric columns). -/
def pvalToQ : PValue → Option ℚ
  | PValue.num q => some q
  | PValue.bool b => some (if b then 1 else 0)
  | _ => none

/-- `_in_range` from validate_dynamic_row.py: null and non-convertible
values are in range; the lower bound is inclusive or exclusive per column;
the upper bound is always exclusive. -/
def in_range (val : PValue) (lo hi : ℚ) (lowerInc : Bool) : Bool :=
  match pvalToQ val with
  | none => true
  | some v => (if lowerInc then decide (lo ≤ v) else decide (lo < v)) && decide (v < hi)

/-- `df[c].to_list()[0]` (null for an empty frame). -/
def firstVal (f : PFrame) (c : String) : PValue :=
  match f.rows.head? with
  | some r => getVal f.cols r c
  | none => PValue.null

/-- `df[c].to_list()[-1]` (null for an empty frame). -/
def lastVal (f : PFrame) (c : String) : PValue :=
  match f.rows.getLast? with
  | some r => getVal f.cols r c
  | none => PValue.null

/-- `with_columns(pl.lit(None).alias(c))` for a present column: the column
becomes all-null with dtype Null. -/
def setColNull (f : PFrame) (c : String) : PFrame :=
  { cols := f.cols.map (fun p => (p.1, if p.1 = c then PType.tNull else p.2)),
    rows := f.rows.map (fun r => List.zipWith (fun p v =>
      if p.1 = c then PValue.null else v) f.cols r) }

/-- One denominator guard of `_maybe_nullify_unstable_ratios`: when the
guard columns are all present and the first-row denominator value is
non-null with magnitude at most the tiny threshold, replace the ratio
column(s) with nulls and append the violation code. -/
def nullifyGuard (checkCols : List String) (denomCol : String) (tiny : ℚ)
    (nullCols : List String) (code : String) (p : PFrame × List String) :
    PFrame × List String :=
  if checkCols.all (fun c => hasCol p.1 c) then
    match pvalToQ (firstVal p.1 denomCol) with
    | some q =>
        if |q| ≤ tiny then (nullCols.foldl setColNull p.1, p.2 ++ [code]) else p
    | none => p
  else p

/-- `_maybe_nullify_unstable_ratios` from validate_dynamic_row.py: the three
denominator guards in source order — tiny free cash flow nullifies the
price/FCF ratio, tiny EBITDA nullifies net-debt/EBITDA, tiny interest
expense nullifies both interest covers; each appends one violation code;
every tiny threshold is 1.0. -/
def maybe_nullify_unstable_ratios (df : PFrame) : PFrame × List String :=
  nullifyGuard ["ebit_interest_cover", "ebit_interest_cover_capped", "interest_expense"]
      "interest_expense" 1 ["ebit_interest_cover", "ebit_interest_cover_capped"]
      "eic_nullified_tiny_interest_expense"
    (nullifyGuard ["ebitda", "net_debt_to_ebitda"] "ebitda" 1
      ["net_debt_to_ebitda"] "nde_nullified_tiny_ebitda"
      (nullifyGuard ["free_cash_flow", "pfcf_ratio"] "free_cash_flow" 1
        ["pfcf_ratio"] "pfcf_ratio_nullified_tiny_fcf" (df, [])))

/-- Out-of-bounds violation text (numeral rendering idealized). -/
def rangeViolation (c : String) (val : PValue) (lo hi : ℚ) (inc : Bool) : String :=
  c ++ " out-of-bounds: " ++ renderValue val ++ " not in " ++
    (if inc then "[" else "(") ++ ratRender lo ++ ", " ++ ratRender hi ++ ")"

/-- `_check_ranges` from validate_dynamic_row.py: one violation per
configured feature whose first-row value is out of range; absent columns
read as null and never violate. -/
def check_ranges (df : PFrame) : List String :=
  if df.rows.isEmpty then []
  else
    featureRanges.filterMap (fun e =>
      let val := if hasCol df e.1 then firstVal df e.1 else PValue.null
      let inc := lowerInclusive.contains e.1
      if in_range val e.2.1 e.2.2 inc then none
      else some (rangeViolation e.1 val e.2.1 e.2.2 inc))

/-- Abnormal-change violation text (numeral rendering idealized). -/
def jumpViolation (c : String) (prevq curq ratioQ : ℚ) : String :=
  c ++ " abnormal change: " ++ ratRender prevq ++ " -> " ++ ratRender curq ++
    " (x" ++ ratRender ratioQ ++ ")"

/-- `_check_relative_jumps` from validate_dynamic_row.py: for the configured
columns, compare the current first-row value with the last prior row's
value; skip nulls, non-convertible values and prior magnitudes below 1e-6;
violate when the magnitude ratio strictly exceeds the limit. -/
def check_relative_jumps (df : PFrame) (prev : Option PFrame) : List String :=
  match prev with
  | none => []
  | some p =>
      if p.rows.isEmpty || df.rows.isEmpty then []
      else
        relJumpLimits.filterMap (fun e =>
          if hasCol df e.1 && hasCol p e.1 then
            match pvalToQ (firstVal df e.1), pvalToQ (lastVal p e.1) with
            | some curq, some prevq =>
                if |prevq| < 1/1000000 then none
                else if |curq / prevq| > e.2 then
                  some (jumpViolation e.1 prevq curq (|curq / prevq|))
                else none
            | _, _ => none
          else none)

/-- `_check_internal_consistency` from validate_dynamic_row.py: the capped
interest cover must not exceed the raw one (tolerance 1e-9). -/
def check_internal_consistency (df : PFrame) : List String :=
  if hasCol df "ebit_interest_cover" && hasCol df "ebit_interest_cover_capped"
      && !df.rows.isEmpty then
    match pvalToQ (firstVal df "ebit_interest_cover"),
          pvalToQ (firstVal df "ebit_interest_cover_capped") with
    | some rawq, some cappedq =>
        if cappedq > rawq + 1/1000000000 then ["eic_capped_gt_raw"] else []
    | _, _ => []
  else []

/-- Result triple of `validate_dynamic_row`. -/
structure ValidateResult where
  status : String
  violations : List String
  frame : PFrame
deriving DecidableEq

/-- `validate_dynamic_row` from validate_dynamic_row.py: an empty frame
returns ok with no violations; otherwise run the nullification step, then
the range, relative-jump and internal-consistency checks on the nullified
frame, and flag exactly when some violation fired.  (The `ticker` and
`sector` parameters of the source do not influence the result and are
omitted.) -/
def validate_dynamic_row (df : PFrame) (prev : Option PFrame) : ValidateResult :=
  if df.rows.isEmpty then { status := "ok", violations := [], frame := df }
  else
    let n := maybe_nullify_unstable_ratios df
    let v := n.2 ++ check_ranges n.1 ++ check_relative_jumps n.1 prev
               ++ check_internal_consistency n.1
    { status := if v.isEmpty then "ok" else "flagged", violations := v, frame := n.1 }

/-- Columns whose first-row value the python validator converts or compares
without a try/except guard: a string there would raise. -/
def guardedNumericCols : List String :=
  ["free_cash_flow", "ebitda", "interest_expense",
   "ebit_interest_cover", "ebit_interest_cover_capped"]

/-- Domain condition of a dynamic row (feature values are nullable
numerics): the unguarded columns hold no strings, so the python validator
cannot raise and the model is faithful. -/
def denominatorCellsNumeric (f : PFrame) : Bool :=
  f.rows.all (fun r => guardedNumericCols.all (fun c =>
    match getVal f.cols r c with
    | PValue.str _ => false
    | _ => true))

/-! ## Per-ticker state machine (generate_features_for_ticker) and driver -/

/-- The result of one `_fetch_build_validate_once` attempt for a TimePoint,
as seen by the per-ticker loop: either a validated, stamped dynamic frame
(with the emptiness of the static frame and the validation status), or the
exception class that escaped (FMPRateLimitError propagates un-retried; auth
and plan errors abort the ticker; any other exception surfaces after the
bounded retries are exhausted). -/
inductive Outcome where
  | success (dyn : PFrame) (staticEmpty : Bool) (status : String)
  | rateLimit
  | authError (msg : String)
  | planError (msg : String)
  | otherError (ename msg : String)
deriving DecidableEq

/-- Whether an outcome is a successful fetch/build/validate. -/
def Outcome.isSuccess : Outcome → Bool
  | Outcome.success _ _ _ => true
  | _ => false

/-- `RunStats` counters touched by the per-ticker loop. -/
structure RunStats where
  ok : Nat
  skipped : Nat
  flagged : Nat
  failed : Nat
deriving DecidableEq

def RunStats.zero : RunStats := { ok := 0, skipped := 0, flagged := 0, failed := 0 }

/-- Status bookkeeping of the success branch (lines 570-575). -/
def bumpStatus (status : String) (s : RunStats) : RunStats :=
  if status = "ok" then { s with ok := s.ok + 1 }
  else if status = "flagged" then { s with flagged := s.flagged + 1 }
  else { s with failed := s.failed + 1 }

def addFailed (s : RunStats) : RunStats := { s with failed := s.failed + 1 }

def addSkipped (s : RunStats) : RunStats := { s with skipped := s.skipped + 1 }

/-- Loop state of `generate_features_for_ticker`, with event traces for
verification: `saves` records each `save_or_append` invocation (by date),
`staticSaves` the static-row writes, `audits` the audit files written during
the loop (the loop body contains no call to `_write_flagged_audit`, so this
trace never grows), `attempted` the dates that entered the
fetch/build/validate attempt, `notes` the non-empty progress notes. -/
structure GenState where
  stats : RunStats
  consec : Nat
  changed : Bool
  savedStatic : Bool
  store : Option PFrame
  logs : List String
  saves : List Int
  staticSaves : Nat
  audits : List String
  attempted : List Int
  notes : List String
deriving DecidableEq

/-- Run-wide parameters of the per-ticker loop. -/
structure GenParams where
  ticker : String
  mode : String
  maxConsec : Nat
  maxMinutes : String
  deadline : Nat → Bool

/-- The as_of keys of a frame. -/
def frameAsOfKeys (f : PFrame) : List PValue := f.rows.map (fun r => asOfCell f.cols r)

/-- Number of rows of a frame whose as_of cell equals the given value. -/
def countAsOf (f : PFrame) (v : PValue) : Nat :=
  (frameAsOfKeys f).countP (fun k => k == v)

/-- `existing_dates` (line 518): the as_of values of the table on disk at
loop start, empty when there is no table. -/
def existingDatesOf (store : Option PFrame) : List PValue :=
  match store with
  | some f => if f.rows.isEmpty then [] else frameAsOfKeys f
  | none => []

def dateKey (d : Int) : PValue := PValue.num (d : ℚ)

def logSkip (t : String) (d : Int) : String :=
  "[SKIP] " ++ t ++ " " ++ toString d ++ " exists - skipping"

def logOk (t : String) (d : Int) (status : String) : String :=
  "[OK] " ++ t ++ " " ++ toString d ++ " status=" ++ status ++ " added"

def logFail429 (t : String) (d : Int) (n : Nat) : String :=
  "[FAIL] " ++ t ++ " " ++ toString d ++
    ": FMPRateLimitError: 429 Too Many Requests (consecutive=" ++ toString n ++ ")"

def logFailTyped (t : String) (d : Int) (ename msg : String) : String :=
  "[FAIL] " ++ t ++ " " ++ toString d ++ ": " ++ ename ++ ": " ++ msg

def logStorm (m : Nat) : String :=
  "[INFO] stopping-early: rate-limit-storm (>= " ++ toString m ++ " consecutive 429s)"

def logDeadline (mins : String) : String :=
  "[INFO] stopping-early: global-deadline reached (" ++ mins ++ "m)"

/-- The per-date loop of `generate_features_for_ticker` (lines 527-617).
At each date: stop on the global deadline (recorded as a note); skip dates
already on disk; on success reset the consecutive-429 counter, persist the
dynamic row at once via `save_or_append`, save the static row at most once,
and count by status; on a rate-limit error increment the counter, and once
it reaches the maximum log the informational storm message and abort the
ticker (without touching the failed counter); on an auth or plan error count
a failure and abort the ticker; on any other error count a failure and move
to the next date. -/
def genLoop (p : GenParams) (exDates : List PValue) :
    Nat → List (Int × Outcome) → GenState → GenState
  | _, [], st => st
  | i, (d, oc) :: rest, st =>
    if p.deadline i then
      { st with logs := st.logs ++ [logDeadline p.maxMinutes],
                notes := st.notes ++ ["global-deadline"] }
    else if dateKey d ∈ exDates then
      genLoop p exDates (i+1) rest
        { st with stats := addSkipped st.stats, logs := st.logs ++ [logSkip p.ticker d] }
    else
      match oc with
      | Outcome.success dyn staticEmpty status =>
          let sv := save_or_append st.store dyn (p.mode ≠ "overwrite")
          let doStatic := !st.savedStatic && !staticEmpty
          genLoop p exDates (i+1) rest
            { st with
              consec := 0,
              store := some sv.table,
              changed := st.changed || sv.changed,
              saves := st.saves ++ [d],
              staticSaves := if doStatic then st.staticSaves + 1 else st.staticSaves,
              savedStatic := if doStatic then true else st.savedStatic,
              stats := bumpStatus status st.stats,
              logs := st.logs ++ [logOk p.ticker d status],
              attempted := st.attempted ++ [d] }
      | Outcome.rateLimit =>
          let n := st.consec + 1
          let st1 :=
            { st with
              consec := n,
              logs := st.logs ++ [logFail429 p.ticker d n],
              attempted := st.attempted ++ [d] }
          if n ≥ p.maxConsec then
            { st1 with
              logs := st1.logs ++ [logStorm p.maxConsec],
              notes := st1.notes ++ ["rate-limit-storm"] }
          else genLoop p exDates (i+1) rest st1
      | Outcome.authError msg =>
          { st with
            stats := addFailed st.stats,
            logs := st.logs ++ [logFailTyped p.ticker d "FMPAuthError" msg],
            attempted := st.attempted ++ [d] }
      | Outcome.planError msg =>
          { st with
            stats := addFailed st.stats,
            logs := st.logs ++ [logFailTyped p.ticker d "FMPPlanError" msg],
            attempted := st.attempted ++ [d] }
      | Outcome.otherError ename msg =>
          genLoop p exDates (i+1) rest
            { st with
              stats := addFailed st.stats,
              logs := st.logs ++ [logFailTyped p.ticker d ename msg],
              attempted := st.attempted ++ [d] }

/-- Fresh loop state over the table read from disk at ticker start. -/
def initGenState (store : Option PFrame) : GenState :=
  { stats := RunStats.zero, consec := 0, changed := false, savedStatic := false,
    store := store, logs := [], saves := [], staticSaves := 0, audits := [],
    attempted := [], notes := [] }

/-- `generate_features_for_ticker`: run the per-date loop from a fresh state,
with the skip set taken from the table on disk at start. -/
def generate_features_for_ticker (p : GenParams) (store : Option PFrame)
    (tasks : List (Int × Outcome)) : GenState :=
  genLoop p (existingDatesOf store) 0 tasks (initGenState store)

/-- `_write_flagged_audit` from ticker_batch_runner.py (helper, defined but
never invoked by the run loop): the audit file name and its content, the
newline-joined violation list. -/
def writeFlaggedAudit (ticker : String) (d : Int) (errors : List String) :
    String × String :=
  (ticker ++ "_" ++ toString d ++ ".txt", String.intercalate "\n" errors)

/-- One ticker's slice of a run: its symbol, its initial on-disk table and
the outcome of each of its dates. -/
structure TickerRun where
  ticker : String
  store : Option PFrame
  tasks : List (Int × Outcome)

/-- Parameters of `main`. -/
structure MainParams where
  mode : String
  maxConsec : Nat
  maxMinutes : String
  strict : Bool
  deadline : Nat → Bool
  tickerDeadline : Nat → Bool

/-- The ticker loop of `main` (lines 637-649): check the global deadline
before each ticker and after each ticker, run the per-ticker machine, and
collect all logs. -/
def mainLoop (ps : MainParams) : Nat → List TickerRun → List String
  | _, [] => []
  | i, tr :: rest =>
      if ps.tickerDeadline (2*i) then
        ["[INFO] stopping-early: global-deadline reached before ticker " ++ tr.ticker]
      else
        let g := generate_features_for_ticker
          { ticker := tr.ticker, mode := ps.mode, maxConsec := ps.maxConsec,
            maxMinutes := ps.maxMinutes, deadline := ps.deadline } tr.store tr.tasks
        if ps.tickerDeadline (2*i+1) then
          g.logs ++ ["[INFO] stopping-early: global-deadline reached"]
        else g.logs ++ mainLoop ps (i+1) rest

/-- `str.startswith(pre)`, computed on the character lists. -/
def strStartsWith (s pre : String) : Bool := pre.data.isPrefixOf s.data

/-- `hard_fail` of `main` (line 652): some log line starts with `[FAIL]`. -/
def hardFailFlag (logs : List String) : Bool :=
  logs.any (fun l => strStartsWith l "[FAIL]")

/-- The exit code decision of `main` (lines 651-655): 1 exactly when strict
mode is on and some log line starts with `[FAIL]`. -/
def mainExitCode (strict : Bool) (logs : List String) : Nat :=
  if strict && hardFailFlag logs then 1 else 0

/-- `main`'s exit code over a run. -/
def mainRun (ps : MainParams) (trs : List TickerRun) : Nat :=
  mainExitCode ps.strict (mainLoop ps 0 trs)

/-- Whether a run contains a fatal auth/plan-class provider error (the
spec's notion of a hard failure). -/
def hasAuthPlanError (trs : List TickerRun) : Bool :=
  trs.any (fun tr => tr.tasks.any (fun t =>
    match t.2 with
    | Outcome.authError _ => true
    | Outcome.planError _ => true
    | _ => false))

/-! ## Concrete sample data -/

/-- Columns of a small dynamic row. -/
def sampleCols : List (String × PType) :=
  [("as_of", PType.tDate), ("ticker", PType.tUtf8), ("x", PType.tFloat32)]

/-- One dynamic row at a given date with a given value of feature x. -/
def sampleRow (d : Int) (x : ℚ) : List PValue :=
  [PValue.num (d : ℚ), PValue.str "TT", PValue.num x]

/-- A one-row dynamic frame. -/
def sampleDyn (d : Int) (x : ℚ) : PFrame :=
  { cols := sampleCols, rows := [sampleRow d x] }

/-- Loop parameters with the source defaults (append mode, breaker
threshold 6) and a deadline that never fires. -/
def sampleParams : GenParams :=
  { ticker := "TT", mode := "append", maxConsec := 6, maxMinutes := "60",
    deadline := fun _ => false }

/-- An existing on-disk one-row table at as_of 100 with x = 1 (already in
the pipeline's canonical shape: sorted columns, validation columns present,
numeric column Float32). -/
def eConflict : PFrame :=
  { cols := [("as_of", PType.tDate), ("ticker", PType.tUtf8),
      ("validation_status", PType.tUtf8), ("violations", PType.tUtf8),
      ("x", PType.tFloat32)],
    rows := [[PValue.num 100, PValue.str "AAA", PValue.str "ok", PValue.str "",
      PValue.num 1]] }

/-- A new one-row batch for the same TimePoint as_of 100 with a different
value x = 2. -/
def nConflict : PFrame :=
  { cols := [("as_of", PType.tDate), ("ticker", PType.tUtf8),
      ("validation_status", PType.tUtf8), ("violations", PType.tUtf8),
      ("x", PType.tFloat32)],
    rows := [[PValue.num 100, PValue.str "AAA", PValue.str "flagged",
      PValue.str "v", PValue.num 2]] }

/-- An existing table whose numeric column x has the wider dtype Float64. -/
def eWide : PFrame :=
  { cols := [("as_of", PType.tDate), ("x", PType.tFloat64)],
    rows := [[PValue.num 100, PValue.num 1]] }

/-- A new batch whose numeric column x has the narrower dtype Float32, at a
fresh TimePoint. -/
def nWide : PFrame :=
  { cols := [("as_of", PType.tDate), ("x", PType.tFloat32)],
    rows := [[PValue.num 101, PValue.num 2]] }

/-- Bit width of a numeric dtype (0 for non-numeric ones). -/
def numericWidth : PType → Nat
  | PType.tFloat64 => 64
  | PType.tInt64 => 64
  | PType.tUInt64 => 64
  | PType.tFloat32 => 32
  | PType.tInt32 => 32
  | PType.tUInt32 => 32
  | PType.tInt16 => 16
  | PType.tUInt16 => 16
  | PType.tInt8 => 8
  | PType.tUInt8 => 8
  | _ => 0

/-- Modelled from the spec: "for each shared column, if both sides are
numeric but of different precision, promote to the wider numeric type"
(spec section 4.4, step 3).  Used only to compare the specified behaviour
with the source's harmonization. -/
def specWiderNumeric (a b : PType) : PType :=
  if numericWidth b ≤ numericWidth a then a else b

/-- A dynamic row with a tiny free cash flow (0.2) and a tiny EBITDA (0.4),
so that both the price/FCF ratio and net-debt/EBITDA get nullified (the
scenario of the repository's soft-validation test). -/
def vSample : PFrame :=
  { cols := [("ticker", PType.tUtf8), ("as_of", PType.tDate),
      ("free_cash_flow", PType.tFloat64), ("pfcf_ratio", PType.tFloat64),
      ("ebitda", PType.tFloat64), ("net_debt_to_ebitda", PType.tFloat64)],
    rows := [[PValue.str "XYZ", PValue.num 100, PValue.num (1/5),
      PValue.num 1000, PValue.num (2/5), PValue.num 50]] }

/-! ## Sample frames and checkers for the persistence analysis -/

/-- Sample existing table for the schema-union analysis: columns
A and as_of, one row at as_of 100. -/
def eC3 : PFrame :=
  { cols := [("A", PType.tFloat32), ("as_of", PType.tDate)],
    rows := [[PValue.num 1, PValue.num 100]] }

/-- Sample new batch for the schema-union analysis: columns as_of and C,
one row at as_of 200. -/
def nC3 : PFrame :=
  { cols := [("as_of", PType.tDate), ("C", PType.tFloat32)],
    rows := [[PValue.num 200, PValue.num 2]] }

/-- The cast schema the merge branch of save_or_append builds for the two
aligned, rounded sides (empty exactly when the two sides already agree on
every dtype after the numeric round-and-cast). -/
def mergeSchemaOf (e0 n0 : PFrame) : List (String × PType) :=
  buildCastSchema
    (sortedUnionNames (colNames n0) (colNames (ensureValidationCols e0)))
    (cast_and_round_numeric (fill_missing_columns (ensureValidationCols e0)
      (sortedUnionNames (colNames n0) (colNames (ensureValidationCols e0)))))
    (cast_and_round_numeric (fill_missing_columns n0
      (sortedUnionNames (colNames n0) (colNames (ensureValidationCols e0)))))

/-- Sample existing table for the rounding analysis: schema-complete (it
already carries the validation columns), one row at as_of 100 with
x = 1.23. -/
def eC10 : PFrame :=
  { cols := [("as_of", PType.tDate), ("validation_status", PType.tUtf8),
             ("violations", PType.tUtf8), ("x", PType.tFloat64)],
    rows := [[PValue.num 100, PValue.str "ok", PValue.str "",
              PValue.num (123/100)]] }

/-- Sample new batch for the rounding analysis: same columns, one row at
as_of 200 with x = 4.567. -/
def nC10 : PFrame :=
  { cols := [("as_of", PType.tDate), ("validation_status", PType.tUtf8),
             ("violations", PType.tUtf8), ("x", PType.tFloat32)],
    rows := [[PValue.num 200, PValue.str "ok", PValue.str "",
              PValue.num (4567/1000)]] }

/-- One-row batch with x = 0.0049. -/
def rowLo : PFrame :=
  { cols := [("as_of", PType.tDate), ("x", PType.tFloat64)],
    rows := [[PValue.num 100, PValue.num (49/10000)]] }

/-- One-row batch with x = 0.0051 (agrees with rowLo through the second
decimal place of every numeric feature). -/
def rowHi : PFrame :=
  { cols := [("as_of", PType.tDate), ("x", PType.tFloat64)],
    rows := [[PValue.num 100, PValue.num (51/10000)]] }

/-- Bool test for a string-valued cell. -/
def isStrVal : PValue → Bool
  | PValue.str _ => true
  | _ => false

/-- Every cell sitting under a column named c (positionally) is a string. -/
def strAtAll (cols : List (String × PType)) (r : List PValue) (c : String) : Bool :=
  (List.zipWith (fun p v => p.1 != c || isStrVal v) cols r).all (fun b => b)

/-- The batch's validation columns hold strings in every row (the shape the
validator always produces). -/
def validationCellsStr (f : PFrame) : Bool :=
  f.rows.all (fun r => strAtAll f.cols r "validation_status" &&
    strAtAll f.cols r "violations")

/-- Canonical one-row batch (sorted columns, Float32 numerics, string
validation cells) used to witness replay idempotence. -/
def nCanon : PFrame :=
  { cols := [("as_of", PType.tDate), ("validation_status", PType.tUtf8),
             ("violations", PType.tUtf8), ("x", PType.tFloat32)],
    rows := [[PValue.num 100, PValue.str "ok", PValue.str "", PValue.num 1]] }

/-! ## Claim theorems -/

/-- C8: a run whose single TimePoint is validated as flagged writes no
audit file at all: the loop body of `generate_features_for_ticker` contains
no call to `_write_flagged_audit` (the helper exists, names the file after
the entity and TimePoint, and the repository's own test asserts the audit
sidecar appears after such a run), so the audit trace stays empty while the
flagged counter records the row. -/
theorem c8_flagged_run_writes_no_audit_file :
    (generate_features_for_ticker sampleParams none
        [(202, Outcome.success (sampleDyn 202 1) false "flagged")]).stats.flagged = 1 ∧
    (generate_features_for_ticker sampleParams none
        [(202, Outcome.success (sampleDyn 202 1) false "flagged")]).audits = [] ∧
    (writeFlaggedAudit "ZZZ" 202 ["pfcf_ratio out-of-bounds"]).1 = "ZZZ_202.txt" := by
  decide

/-- C7 counterexample: a run over two TimePoints, both successful, invokes
`save_or_append` twice, once per TimePoint and in date order, not in one
single call after all TimePoints: persistence is per-TimePoint. -/
theorem c7_counterexample :
    (generate_features_for_ticker sampleParams none
        [(100, Outcome.success (sampleDyn 100 1) false "ok"),
         (101, Outcome.success (sampleDyn 101 2) false "ok")]).saves = [100, 101] ∧
    (generate_features_for_ticker sampleParams none
        [(100, Outcome.success (sampleDyn 100 1) false "ok"),
         (101, Outcome.success (sampleDyn 101 2) false "ok")]).saves.length ≠ 1 := by
  decide

/-- C6 counterexample: with strict mode on, a run whose only error is a
generic (non-auth, non-plan) exception exits with status 1: the exit
decision scans for `[FAIL]` log lines, which rate-limit and exhausted-retry
generic failures also produce, so exit 1 does not imply a fatal
auth/plan-class provider error. -/
theorem c6_counterexample :
    hasAuthPlanError
        [{ ticker := "TT", store := none,
           tasks := [(100, Outcome.otherError "ValueError" "boom")] }] = false ∧
    mainRun
        { mode := "append", maxConsec := 6, maxMinutes := "60", strict := true,
          deadline := fun _ => false, tickerDeadline := fun _ => false }
        [{ ticker := "TT", store := none,
           tasks := [(100, Outcome.otherError "ValueError" "boom")] }] = 1 := by
  decide

/-- Tag discipline of the log lines: success lines are tagged OK, never
FAIL (so flagged rows cannot flip the exit code). -/
theorem logOk_not_fail (t : String) (d : Int) (st : String) :
    strStartsWith (logOk t d st) "[FAIL]" = false := by
  simp [logOk, strStartsWith, String.data_append, List.isPrefixOf]

/-- Skip lines are tagged SKIP, never FAIL. -/
theorem logSkip_not_fail (t : String) (d : Int) :
    strStartsWith (logSkip t d) "[FAIL]" = false := by
  simp [logSkip, strStartsWith, String.data_append, List.isPrefixOf]

/-- Deadline stop lines are tagged INFO, never FAIL. -/
theorem logDeadline_not_fail (m : String) :
    strStartsWith (logDeadline m) "[FAIL]" = false := by
  simp [logDeadline, strStartsWith, String.data_append, List.isPrefixOf]

/-- No log line of an all-success (possibly skipped, possibly
deadline-stopped) per-ticker run is tagged FAIL. -/
theorem genLoop_noFail (p : GenParams) (ex : List PValue) :
    ∀ (tasks : List (Int × Outcome)) (i : Nat) (st : GenState),
      (∀ t ∈ tasks, t.2.isSuccess = true) →
      (∀ l ∈ st.logs, strStartsWith l "[FAIL]" = false) →
      ∀ l ∈ (genLoop p ex i tasks st).logs, strStartsWith l "[FAIL]" = false := by
  intro tasks
  induction tasks with
  | nil => intro i st _ hn; simpa [genLoop] using hn
  | cons hd tl ih =>
      intro i st hall hn
      obtain ⟨d, oc⟩ := hd
      have hsucc : oc.isSuccess = true := hall (d, oc) (List.mem_cons_self _ _)
      cases oc with
      | success dyn se status =>
          simp only [genLoop]
          split
          · intro l hl
            rcases List.mem_append.mp hl with h | h
            · exact hn l h
            · simp only [List.mem_singleton] at h
              subst h
              exact logDeadline_not_fail _
          · split
            · apply ih (i+1) _ (fun t ht => hall t (List.mem_cons_of_mem _ ht))
              intro l hl
              rcases List.mem_append.mp hl with h | h
              · exact hn l h
              · simp only [List.mem_singleton] at h
                subst h
                exact logSkip_not_fail _ _
            · apply ih (i+1) _ (fun t ht => hall t (List.mem_cons_of_mem _ ht))
              intro l hl
              rcases List.mem_append.mp hl with h | h
              · exact hn l h
              · simp only [List.mem_singleton] at h
                subst h
                exact logOk_not_fail _ _ _
      | rateLimit => simp [Outcome.isSuccess] at hsucc
      | authError msg => simp [Outcome.isSuccess] at hsucc
      | planError msg => simp [Outcome.isSuccess] at hsucc
      | otherError e m => simp [Outcome.isSuccess] at hsucc

/-- No log line of a run whose outcomes are all successes is tagged FAIL. -/
theorem mainLoop_noFail (ps : MainParams) :
    ∀ (trs : List TickerRun) (i : Nat),
      (∀ tr ∈ trs, ∀ t ∈ tr.tasks, t.2.isSuccess = true) →
      ∀ l ∈ mainLoop ps i trs, strStartsWith l "[FAIL]" = false := by
  intro trs
  induction trs with
  | nil => intro i _ l hl; simp [mainLoop] at hl
  | cons tr rest ih =>
      intro i hall
      simp only [mainLoop]
      split
      · intro l hl
        simp only [List.mem_singleton] at hl
        subst hl
        simp [strStartsWith, String.data_append, List.isPrefixOf]
      · have hgen := genLoop_noFail
          { ticker := tr.ticker, mode := ps.mode, maxConsec := ps.maxConsec,
            maxMinutes := ps.maxMinutes, deadline := ps.deadline }
          (existingDatesOf tr.store) tr.tasks 0 (initGenState tr.store)
          (fun t ht => hall tr (List.mem_cons_self _ _) t ht)
          (by intro l hl; simp [initGenState] at hl)
        split
        · intro l hl
          rcases List.mem_append.mp hl with h | h
          · exact hgen l h
          · simp only [List.mem_singleton] at h
            subst h
            decide
        · intro l hl
          rcases List.mem_append.mp hl with h | h
          · exact hgen l h
          · exact ih (i+1) (fun tr2 htr2 t ht => hall tr2 (List.mem_cons_of_mem _ htr2) t ht) l h

/-- C6 amended: the exit status is 1 exactly when strict mode is on and
some log line is tagged FAIL (which rate-limit errors, auth or plan errors,
and exhausted-retry generic errors all produce, not only fatal
auth/plan-class errors); runs whose outcomes are all successes exit 0, so
soft flagged rows never affect the exit code. -/
theorem c6_exit_code_contract :
    (∀ (ps : MainParams) (trs : List TickerRun),
        mainRun ps trs = 1 ↔
          ps.strict = true ∧ ∃ l ∈ mainLoop ps 0 trs, strStartsWith l "[FAIL]" = true) ∧
    (∀ (ps : MainParams) (trs : List TickerRun),
        (∀ tr ∈ trs, ∀ t ∈ tr.tasks, t.2.isSuccess = true) →
        mainRun ps trs = 0) := by
  constructor
  · intro ps trs
    unfold mainRun mainExitCode hardFailFlag
    constructor
    · intro h
      rcases hcond : (ps.strict && (mainLoop ps 0 trs).any (fun l => strStartsWith l "[FAIL]")) with _ | _
      · rw [hcond] at h
        simp at h
      · rw [Bool.and_eq_true, List.any_eq_true] at hcond
        exact ⟨hcond.1, hcond.2⟩
    · rintro ⟨hs, l, hl, hf⟩
      have hcond : (ps.strict && (mainLoop ps 0 trs).any (fun l => strStartsWith l "[FAIL]")) = true := by
        rw [Bool.and_eq_true, List.any_eq_true]
        exact ⟨hs, l, hl, hf⟩
      rw [hcond]
      rfl
  · intro ps trs hall
    unfold mainRun mainExitCode
    have hno := mainLoop_noFail ps trs 0 hall
    have hflag : hardFailFlag (mainLoop ps 0 trs) = false := by
      unfold hardFailFlag
      rw [List.any_eq_false]
      intro l hl
      simp [hno l hl]
    rw [hflag]
    simp

/-- C6 amended, witness: a strict run whose only row is flagged exits 0. -/
theorem c6_exit_code_contract_witness :
    mainRun
      { mode := "append", maxConsec := 6, maxMinutes := "60", strict := true,
        deadline := fun _ => false, tickerDeadline := fun _ => false }
      [{ ticker := "TT", store := none,
         tasks := [(100, Outcome.success (sampleDyn 100 1) false "flagged")] }] = 0 := by
  exact c6_exit_code_contract.2 _ _ (by decide)

/-- C5: the circuit-breaker contract of the per-ticker loop.
Part 1: processing a successful TimePoint resets the consecutive-429
counter to zero, whatever its previous value.
Part 2: a rate-limit error that brings the counter to the configured
maximum stops the ticker at once: nothing further is attempted, the stop is
recorded as the informational rate-limit-storm note and log line, and the
failed counter is untouched (no hard failure is counted).
Part 3: with the default threshold 6 and a fresh counter, six consecutive
rate-limit errors abort the entity before any later TimePoint is attempted,
with no save and no failed count.
Part 4: the driver continues with the remaining tickers after any per-ticker
run, storm-aborted or not. -/
theorem c5_circuit_breaker :
    (∀ (p : GenParams) (ex : List PValue) (i : Nat) (d : Int) (dyn : PFrame)
        (se : Bool) (status : String) (st : GenState),
      p.deadline i = false → dateKey d ∉ ex →
      (genLoop p ex i [(d, Outcome.success dyn se status)] st).consec = 0) ∧
    (∀ (p : GenParams) (ex : List PValue) (i : Nat) (d : Int)
        (rest : List (Int × Outcome)) (st : GenState),
      p.deadline i = false → dateKey d ∉ ex → st.consec + 1 ≥ p.maxConsec →
      (genLoop p ex i ((d, Outcome.rateLimit) :: rest) st).attempted = st.attempted ++ [d] ∧
      (genLoop p ex i ((d, Outcome.rateLimit) :: rest) st).notes =
        st.notes ++ ["rate-limit-storm"] ∧
      (genLoop p ex i ((d, Outcome.rateLimit) :: rest) st).stats = st.stats ∧
      (genLoop p ex i ((d, Outcome.rateLimit) :: rest) st).saves = st.saves ∧
      (genLoop p ex i ((d, Outcome.rateLimit) :: rest) st).logs =
        st.logs ++ [logFail429 p.ticker d (st.consec + 1), logStorm p.maxConsec]) ∧
    (∀ (p : GenParams) (ex : List PValue) (st : GenState) (i : Nat)
        (d1 d2 d3 d4 d5 d6 : Int) (rest : List (Int × Outcome)),
      (∀ n, p.deadline n = false) → p.maxConsec = 6 → st.consec = 0 →
      dateKey d1 ∉ ex → dateKey d2 ∉ ex → dateKey d3 ∉ ex →
      dateKey d4 ∉ ex → dateKey d5 ∉ ex → dateKey d6 ∉ ex →
      (genLoop p ex i ([(d1, Outcome.rateLimit), (d2, Outcome.rateLimit),
          (d3, Outcome.rateLimit), (d4, Outcome.rateLimit), (d5, Outcome.rateLimit),
          (d6, Outcome.rateLimit)] ++ rest) st).attempted
        = st.attempted ++ [d1, d2, d3, d4, d5, d6] ∧
      (genLoop p ex i ([(d1, Outcome.rateLimit), (d2, Outcome.rateLimit),
          (d3, Outcome.rateLimit), (d4, Outcome.rateLimit), (d5, Outcome.rateLimit),
          (d6, Outcome.rateLimit)] ++ rest) st).notes
        = st.notes ++ ["rate-limit-storm"] ∧
      (genLoop p ex i ([(d1, Outcome.rateLimit), (d2, Outcome.rateLimit),
          (d3, Outcome.rateLimit), (d4, Outcome.rateLimit), (d5, Outcome.rateLimit),
          (d6, Outcome.rateLimit)] ++ rest) st).stats.failed = st.stats.failed ∧
      (genLoop p ex i ([(d1, Outcome.rateLimit), (d2, Outcome.rateLimit),
          (d3, Outcome.rateLimit), (d4, Outcome.rateLimit), (d5, Outcome.rateLimit),
          (d6, Outcome.rateLimit)] ++ rest) st).saves = st.saves) ∧
    (∀ (ps : MainParams) (i : Nat) (tr : TickerRun) (rest : List TickerRun),
      ps.tickerDeadline (2*i) = false → ps.tickerDeadline (2*i+1) = false →
      mainLoop ps i (tr :: rest) =
        (generate_features_for_ticker
          { ticker := tr.ticker, mode := ps.mode, maxConsec := ps.maxConsec,
            maxMinutes := ps.maxMinutes, deadline := ps.deadline }
          tr.store tr.tasks).logs ++ mainLoop ps (i+1) rest) := by
  refine ⟨?_, ?_, ?_, ?_⟩
  · intro p ex i d dyn se status st h1 h2
    simp [genLoop, h1, h2]
  · intro p ex i d rest st h1 h2 h3
    simp [genLoop, h1, h2, h3]
  · intro p ex st i d1 d2 d3 d4 d5 d6 rest hdl hmax hc h1 h2 h3 h4 h5 h6
    simp [genLoop, hdl, hmax, hc, h1, h2, h3, h4, h5, h6]
  · intro ps i tr rest h1 h2
    simp [mainLoop, h1, h2]

/-- C5 witness: with the default threshold 6, six consecutive 429s starting
from a fresh counter attempt exactly those six dates and record the
informational storm note; a success resets the counter to 0. -/
theorem c5_circuit_breaker_witness :
    (genLoop sampleParams [] 0 [(7, Outcome.success (sampleDyn 7 1) true "ok")]
      (initGenState none)).consec = 0 ∧
    (genLoop sampleParams [] 0 [(1, Outcome.rateLimit), (2, Outcome.rateLimit),
        (3, Outcome.rateLimit), (4, Outcome.rateLimit), (5, Outcome.rateLimit),
        (6, Outcome.rateLimit)] (initGenState none)).attempted = [1, 2, 3, 4, 5, 6] ∧
    (genLoop sampleParams [] 0 [(1, Outcome.rateLimit), (2, Outcome.rateLimit),
        (3, Outcome.rateLimit), (4, Outcome.rateLimit), (5, Outcome.rateLimit),
        (6, Outcome.rateLimit)] (initGenState none)).notes = ["rate-limit-storm"] := by
  have ha := c5_circuit_breaker.1 sampleParams [] 0 7 (sampleDyn 7 1) true "ok"
    (initGenState none) rfl (by decide)
  have hc := c5_circuit_breaker.2.2.1 sampleParams [] (initGenState none) 0
    1 2 3 4 5 6 [] (fun _ => rfl) rfl rfl (by decide) (by decide) (by decide)
    (by decide) (by decide) (by decide)
  refine ⟨ha, ?_, ?_⟩
  · simpa [initGenState] using hc.1
  · simpa [initGenState] using hc.2.1

/-- C7 amended: the per-ticker loop does not batch rows: every successful
TimePoint triggers its own `save_or_append` call immediately, in date
order, one call per TimePoint. -/
theorem c7_per_timepoint_saves :
    ∀ (p : GenParams) (ex : List PValue) (i : Nat) (tasks : List (Int × Outcome))
      (st : GenState),
      (∀ n, p.deadline n = false) →
      (∀ t ∈ tasks, dateKey t.1 ∉ ex) →
      (∀ t ∈ tasks, t.2.isSuccess = true) →
      (genLoop p ex i tasks st).saves = st.saves ++ tasks.map Prod.fst := by
  intro p ex i tasks
  induction tasks generalizing i with
  | nil => intro st _ _ _; simp [genLoop]
  | cons hd tl ih =>
      intro st hdl hex hsucc
      obtain ⟨d, oc⟩ := hd
      have hsd : dateKey d ∉ ex := hex (d, oc) (List.mem_cons_self _ _)
      have hso : oc.isSuccess = true := hsucc (d, oc) (List.mem_cons_self _ _)
      cases oc with
      | success dyn se status =>
          simp only [genLoop, hdl i, Bool.false_eq_true, if_false, if_neg hsd]
          rw [ih (i+1) _ hdl (fun t ht => hex t (List.mem_cons_of_mem _ ht))
            (fun t ht => hsucc t (List.mem_cons_of_mem _ ht))]
          simp
      | rateLimit => simp [Outcome.isSuccess] at hso
      | authError msg => simp [Outcome.isSuccess] at hso
      | planError msg => simp [Outcome.isSuccess] at hso
      | otherError e m => simp [Outcome.isSuccess] at hso

/-- C7 amended, witness: a two-success run makes exactly two save calls, in
date order. -/
theorem c7_per_timepoint_saves_witness :
    (genLoop sampleParams [] 0 [(100, Outcome.success (sampleDyn 100 1) false "ok"),
      (101, Outcome.success (sampleDyn 101 2) false "flagged")]
      (initGenState none)).saves = [100, 101] := by
  have h := c7_per_timepoint_saves sampleParams [] 0
    [(100, Outcome.success (sampleDyn 100 1) false "ok"),
     (101, Outcome.success (sampleDyn 101 2) false "flagged")]
    (initGenState none) (fun _ => rfl) (by decide) (by decide)
  simpa [initGenState] using h

/-- Row count of a frame after a column is nulled out is unchanged. -/
theorem setColNull_rows_length (f : PFrame) (c : String) :
    (setColNull f c).rows.length = f.rows.length := by
  simp [setColNull]

/-- Column names of a frame after a column is nulled out are unchanged. -/
theorem setColNull_colNames (f : PFrame) (c : String) :
    colNames (setColNull f c) = colNames f := by
  unfold colNames setColNull
  simp only [List.map_map]
  apply List.map_congr_left
  intro p _
  by_cases h : p.1 = c <;> simp [h]

/-- Nulling out any list of columns keeps row count and column names. -/
theorem foldl_setColNull_shape (cs : List String) :
    ∀ (f : PFrame), (cs.foldl setColNull f).rows.length = f.rows.length ∧
      colNames (cs.foldl setColNull f) = colNames f := by
  induction cs with
  | nil => intro f; exact ⟨rfl, rfl⟩
  | cons c cs ih =>
      intro f
      refine ⟨?_, ?_⟩
      · rw [List.foldl_cons, (ih (setColNull f c)).1, setColNull_rows_length]
      · rw [List.foldl_cons, (ih (setColNull f c)).2, setColNull_colNames]

/-- A denominator guard never drops rows or columns. -/
theorem nullifyGuard_shape (cc : List String) (dc : String) (ty : ℚ)
    (nc : List String) (code : String) (p : PFrame × List String) :
    (nullifyGuard cc dc ty nc code p).1.rows.length = p.1.rows.length ∧
    colNames (nullifyGuard cc dc ty nc code p).1 = colNames p.1 := by
  unfold nullifyGuard
  repeat' split
  all_goals simp [foldl_setColNull_shape]

/-- A denominator guard leaves an empty frame untouched. -/
theorem nullifyGuard_empty (cc : List String) (dc : String) (ty : ℚ)
    (nc : List String) (code : String) (p : PFrame × List String)
    (h : p.1.rows = []) : nullifyGuard cc dc ty nc code p = p := by
  unfold nullifyGuard
  simp [firstVal, h, pvalToQ]

/-- The nullification step never drops rows or columns. -/
theorem nullify_shape (df : PFrame) :
    (maybe_nullify_unstable_ratios df).1.rows.length = df.rows.length ∧
    colNames (maybe_nullify_unstable_ratios df).1 = colNames df := by
  unfold maybe_nullify_unstable_ratios
  constructor
  · rw [(nullifyGuard_shape _ _ _ _ _ _).1, (nullifyGuard_shape _ _ _ _ _ _).1,
      (nullifyGuard_shape _ _ _ _ _ _).1]
  · rw [(nullifyGuard_shape _ _ _ _ _ _).2, (nullifyGuard_shape _ _ _ _ _ _).2,
      (nullifyGuard_shape _ _ _ _ _ _).2]

/-- The nullification step leaves an empty frame untouched and emits no
violation. -/
theorem nullify_empty (df : PFrame) (h : df.rows = []) :
    maybe_nullify_unstable_ratios df = (df, []) := by
  unfold maybe_nullify_unstable_ratios
  rw [nullifyGuard_empty _ _ _ _ _ (df, []) h]
  rw [nullifyGuard_empty _ _ _ _ _ (df, []) h]
  rw [nullifyGuard_empty _ _ _ _ _ (df, []) h]

/-- C4: on the dynamic-row domain (nullable numeric features, so the python
conversions cannot raise), the validator is a total function that never
drops the row: the status is flagged exactly when the violation list is
non-empty (and is always ok or flagged), the returned frame is exactly the
frame produced by the denominator-guard nullification step (steps 2-4 never
mutate it), row count and column names are preserved, and a row touched by
a nullification is always flagged because nullification itself appends a
violation code. -/
theorem c4_validator_contract :
    ∀ (df : PFrame) (prev : Option PFrame),
      denominatorCellsNumeric df = true →
      ((validate_dynamic_row df prev).status = "flagged" ↔
        (validate_dynamic_row df prev).violations ≠ []) ∧
      ((validate_dynamic_row df prev).status = "flagged" ∨
        (validate_dynamic_row df prev).status = "ok") ∧
      (validate_dynamic_row df prev).frame = (maybe_nullify_unstable_ratios df).1 ∧
      (validate_dynamic_row df prev).frame.rows.length = df.rows.length ∧
      colNames (validate_dynamic_row df prev).frame = colNames df ∧
      ((maybe_nullify_unstable_ratios df).2 ≠ [] →
        (validate_dynamic_row df prev).status = "flagged") := by
  intro df prev _
  have hok : ("ok" : String) ≠ "flagged" := by decide
  by_cases hemp : df.rows.isEmpty
  · have hrows : df.rows = [] := List.isEmpty_iff.mp hemp
    have hnul := nullify_empty df hrows
    unfold validate_dynamic_row
    rw [if_pos hemp]
    refine ⟨?_, ?_, ?_, ?_, ?_, ?_⟩
    · simp [hok.symm]
    · right; rfl
    · rw [hnul]
    · rfl
    · rfl
    · rw [hnul]; intro h; exact absurd rfl h
  · have hfr : (validate_dynamic_row df prev).frame =
        (maybe_nullify_unstable_ratios df).1 := by
      unfold validate_dynamic_row
      rw [if_neg hemp]
    have hviol : (validate_dynamic_row df prev).violations =
        (maybe_nullify_unstable_ratios df).2 ++
          check_ranges (maybe_nullify_unstable_ratios df).1 ++
          check_relative_jumps (maybe_nullify_unstable_ratios df).1 prev ++
          check_internal_consistency (maybe_nullify_unstable_ratios df).1 := by
      unfold validate_dynamic_row
      rw [if_neg hemp]
    have hstat : (validate_dynamic_row df prev).status =
        if ((maybe_nullify_unstable_ratios df).2 ++
            check_ranges (maybe_nullify_unstable_ratios df).1 ++
            check_relative_jumps (maybe_nullify_unstable_ratios df).1 prev ++
            check_internal_consistency (maybe_nullify_unstable_ratios df).1).isEmpty
        then "ok" else "flagged" := by
      unfold validate_dynamic_row
      rw [if_neg hemp]
    refine ⟨?_, ?_, hfr, ?_, ?_, ?_⟩
    · rw [hstat, hviol]
      cases hb : ((maybe_nullify_unstable_ratios df).2 ++
          check_ranges (maybe_nullify_unstable_ratios df).1 ++
          check_relative_jumps (maybe_nullify_unstable_ratios df).1 prev ++
          check_internal_consistency (maybe_nullify_unstable_ratios df).1).isEmpty
      · have hne := (List.isEmpty_eq_false.mp hb)
        rw [if_neg (by simp)]
        exact iff_of_true rfl hne
      · have heq := List.isEmpty_iff.mp hb
        rw [if_pos rfl]
        exact iff_of_false hok (fun hn => hn heq)
    · rw [hstat]
      cases hb : ((maybe_nullify_unstable_ratios df).2 ++
          check_ranges (maybe_nullify_unstable_ratios df).1 ++
          check_relative_jumps (maybe_nullify_unstable_ratios df).1 prev ++
          check_internal_consistency (maybe_nullify_unstable_ratios df).1).isEmpty
      · left; simp
      · right; simp
    · rw [hfr]; exact (nullify_shape df).1
    · rw [hfr]; exact (nullify_shape df).2
    · intro h
      rw [hstat]
      have hne : ((maybe_nullify_unstable_ratios df).2 ++
          check_ranges (maybe_nullify_unstable_ratios df).1 ++
          check_relative_jumps (maybe_nullify_unstable_ratios df).1 prev ++
          check_internal_consistency (maybe_nullify_unstable_ratios df).1) ≠ [] := by
        intro he
        rcases List.append_eq_nil.mp he with ⟨he1, _⟩
        rcases List.append_eq_nil.mp he1 with ⟨he2, _⟩
        rcases List.append_eq_nil.mp he2 with ⟨he3, _⟩
        exact h he3
      rw [if_neg (by simpa [List.isEmpty_iff] using hne)]

/-- C4 witness: the tiny-denominator row (free cash flow 0.2, EBITDA 0.4)
satisfies the numeric-domain hypothesis and the full validator contract;
its only anomalies are nullifications and it is flagged. -/
theorem c4_validator_contract_witness :
    denominatorCellsNumeric vSample = true ∧
    (((validate_dynamic_row vSample none).status = "flagged" ↔
        (validate_dynamic_row vSample none).violations ≠ []) ∧
      ((validate_dynamic_row vSample none).status = "flagged" ∨
        (validate_dynamic_row vSample none).status = "ok") ∧
      (validate_dynamic_row vSample none).frame =
        (maybe_nullify_unstable_ratios vSample).1 ∧
      (validate_dynamic_row vSample none).frame.rows.length = vSample.rows.length ∧
      colNames (validate_dynamic_row vSample none).frame = colNames vSample ∧
      ((maybe_nullify_unstable_ratios vSample).2 ≠ [] →
        (validate_dynamic_row vSample none).status = "flagged")) :=
  ⟨by decide, c4_validator_contract vSample none (by decide)⟩


theorem strLt_iff (a b : String) : strLt a b = true ↔ a < b := by
  rw [strLt, decide_eq_true_iff, String.lt_iff_toList_lt]
  rfl

theorem mem_sInsert (a x : String) :
    ∀ (l : List String), a ∈ sInsert x l ↔ a = x ∨ a ∈ l := by
  intro l
  induction l with
  | nil => simp [sInsert]
  | cons y ys ih =>
      unfold sInsert
      by_cases h1 : strLt x y
      · rw [if_pos h1]
        simp [List.mem_cons]
      · rw [if_neg h1]
        by_cases h2 : x = y
        · rw [if_pos h2]
          subst h2
          simp only [List.mem_cons]
          tauto
        · rw [if_neg h2]
          simp only [List.mem_cons, ih]
          tauto

theorem sorted_sInsert (x : String) :
    ∀ (l : List String), l.Pairwise (· < ·) → (sInsert x l).Pairwise (· < ·) := by
  intro l
  induction l with
  | nil => intro _; simp [sInsert]
  | cons y ys ih =>
      intro hp
      rcases List.pairwise_cons.mp hp with ⟨hy, hys⟩
      unfold sInsert
      by_cases h1 : x < y
      · rw [if_pos ((strLt_iff x y).mpr h1)]
        refine List.pairwise_cons.mpr ⟨?_, hp⟩
        intro b hb
        rcases List.mem_cons.mp hb with h | h
        · subst h; exact h1
        · exact lt_trans h1 (hy b h)
      · rw [if_neg (fun hb => h1 ((strLt_iff x y).mp hb))]
        by_cases h2 : x = y
        · rw [if_pos h2]
          exact hp
        · rw [if_neg h2]
          refine List.pairwise_cons.mpr ⟨?_, ih hys⟩
          intro b hb
          rcases (mem_sInsert b x ys).mp hb with h | h
          · rw [h]
            rcases lt_trichotomy x y with hc | hc | hc
            · exact absurd hc h1
            · exact absurd hc h2
            · exact hc
          · exact hy b h

theorem sorted_foldr_sInsert (xs : List String) :
    (xs.foldr sInsert []).Pairwise (· < ·) := by
  induction xs with
  | nil => simp
  | cons b bs ih => exact sorted_sInsert b _ ih

theorem mem_foldr_sInsert (a : String) :
    ∀ (xs : List String), a ∈ xs.foldr sInsert [] ↔ a ∈ xs := by
  intro xs
  induction xs with
  | nil => simp
  | cons b bs ih =>
      simp only [List.foldr_cons, mem_sInsert, List.mem_cons, ih]

theorem sortedUnionNames_sorted (l1 l2 : List String) :
    (sortedUnionNames l1 l2).Pairwise (· < ·) := sorted_foldr_sInsert _

theorem sortedUnionNames_nodup (l1 l2 : List String) :
    (sortedUnionNames l1 l2).Nodup :=
  (sortedUnionNames_sorted l1 l2).imp ne_of_lt

theorem mem_sortedUnionNames (a : String) (l1 l2 : List String) :
    a ∈ sortedUnionNames l1 l2 ↔ a ∈ l1 ∨ a ∈ l2 := by
  unfold sortedUnionNames
  rw [mem_foldr_sInsert, List.mem_append]

theorem getVal_construct (tp : String → PType) (g : String → PValue) (c : String) :
    ∀ (u : List String),
      getVal (u.map (fun x => (x, tp x))) (u.map g) c =
        if c ∈ u then g c else PValue.null := by
  intro u
  induction u with
  | nil => simp [getVal]
  | cons b bs ih =>
      simp only [List.map_cons, getVal]
      by_cases h : b = c
      · rw [if_pos h, h]
        simp
      · rw [if_neg h, ih]
        by_cases h2 : c ∈ bs
        · rw [if_pos h2, if_pos (List.mem_cons_of_mem _ h2)]
        · rw [if_neg h2, if_neg ?_]
          simp only [List.mem_cons]
          rintro (hh | hh)
          · exact h hh.symm
          · exact h2 hh

theorem lookup_construct (tp : String → PType) (c : String) :
    ∀ (u : List String),
      (u.map (fun x => (x, tp x))).lookup c =
        if c ∈ u then some (tp c) else none := by
  intro u
  induction u with
  | nil => simp [List.lookup]
  | cons b bs ih =>
      simp only [List.map_cons, List.lookup]
      by_cases h : b = c
      · rw [h]
        simp
      · have hb : (c == b) = false := by simp [Ne.symm h]
        rw [hb]
        simp only [ih]
        by_cases h2 : c ∈ bs
        · rw [if_pos h2, if_pos (List.mem_cons_of_mem _ h2)]
        · rw [if_neg h2, if_neg ?_]
          simp only [List.mem_cons]
          rintro (hh | hh)
          · exact h hh.symm
          · exact h2 hh

theorem getVal_zipWith (T : String × PType → PType)
    (V : String × PType → PValue → PValue) (c : String) :
    ∀ (cols : List (String × PType)) (r : List PValue), r.length = cols.length →
      getVal (cols.map (fun p => (p.1, T p))) (List.zipWith V cols r) c =
        (match cols.lookup c with
         | some t => V (c, t) (getVal cols r c)
         | none => PValue.null) := by
  intro cols
  induction cols with
  | nil =>
      intro r _
      simp [getVal, List.lookup]
  | cons p ps ih =>
      intro r hlen
      obtain ⟨pn, pt⟩ := p
      cases r with
      | nil => simp at hlen
      | cons v vs =>
          simp only [List.map_cons, List.zipWith_cons_cons, getVal, List.lookup]
          by_cases hc : pn = c
          · subst hc
            simp [getVal]
          · have hb : (c == pn) = false := by simp [Ne.symm hc]
            rw [if_neg hc, hb]
            simp only [List.length_cons, Nat.succ.injEq] at hlen
            rw [ih vs hlen]
            simp [getVal, hc]

theorem lookup_map_dtype (T : String × PType → PType) (c : String) :
    ∀ (cols : List (String × PType)),
      (cols.map (fun p => (p.1, T p))).lookup c =
        (match cols.lookup c with
         | some t => some (T (c, t))
         | none => none) := by
  intro cols
  induction cols with
  | nil => simp [List.lookup]
  | cons p ps ih =>
      obtain ⟨pn, pt⟩ := p
      simp only [List.map_cons, List.lookup]
      by_cases hc : pn = c
      · subst hc
        simp
      · have hb : (c == pn) = false := by simp [Ne.symm hc]
        rw [hb]
        simp only [ih]

theorem getVal_not_mem (c : String) :
    ∀ (cols : List (String × PType)) (r : List PValue),
      c ∉ cols.map Prod.fst → getVal cols r c = PValue.null := by
  intro cols
  induction cols with
  | nil => intro r _; cases r <;> simp [getVal]
  | cons p ps ih =>
      intro r hm
      cases r with
      | nil => simp [getVal]
      | cons v vs =>
          simp only [List.map_cons, List.mem_cons] at hm
          push_neg at hm
          simp only [getVal]
          rw [if_neg (fun hh => hm.1 hh.symm)]
          exact ih vs hm.2

theorem colNames_mapT (T : String × PType → PType) (cols : List (String × PType)) :
    (cols.map (fun p => (p.1, T p))).map Prod.fst = cols.map Prod.fst := by
  simp only [List.map_map]
  apply List.map_congr_left
  intro p _
  rfl

theorem getVal_append_single (c0 : String) (t : PType) (v : PValue) (c : String) :
    ∀ (cols : List (String × PType)) (r : List PValue), r.length = cols.length →
      getVal (cols ++ [(c0, t)]) (r ++ [v]) c =
        (if c ∈ cols.map Prod.fst then getVal cols r c
         else if c = c0 then v else PValue.null) := by
  intro cols
  induction cols with
  | nil =>
      intro r hlen
      rw [List.length_eq_zero.mp hlen]
      simp only [List.nil_append, List.map_nil, List.not_mem_nil, if_false]
      by_cases hc : c0 = c
      · subst hc
        simp [getVal]
      · simp [getVal, hc, Ne.symm hc]
  | cons p ps ih =>
      obtain ⟨pn, pt⟩ := p
      intro r hlen
      cases r with
      | nil => simp at hlen
      | cons w ws =>
          simp only [List.length_cons, Nat.succ.injEq] at hlen
          simp only [List.cons_append, getVal, List.map_cons, List.mem_cons,
            List.append_eq]
          rw [ih ws hlen]
          by_cases hc : pn = c
          · subst hc
            simp
          · by_cases h2 : c ∈ ps.map Prod.fst <;>
              simp [hc, h2, Ne.symm hc]

theorem lookup_append_single (c0 : String) (t : PType) (c : String) :
    ∀ (cols : List (String × PType)),
      (cols ++ [(c0, t)]).lookup c =
        (if c ∈ cols.map Prod.fst then cols.lookup c
         else if c = c0 then some t else none) := by
  intro cols
  induction cols with
  | nil =>
      simp only [List.nil_append, List.map_nil, List.not_mem_nil, if_false]
      by_cases hc : c = c0
      · subst hc
        simp [List.lookup]
      · have hb : (c == c0) = false := by simp [hc]
        simp [List.lookup, hb, hc]
  | cons p ps ih =>
      obtain ⟨pn, pt⟩ := p
      simp only [List.cons_append, List.lookup, List.map_cons, List.mem_cons,
        List.append_eq]
      rw [ih]
      by_cases hc : c = pn
      · subst hc
        simp
      · have hb : (c == pn) = false := by simp [hc]
        rw [hb]
        by_cases h2 : c ∈ ps.map Prod.fst <;> simp [hc, h2, hb]

theorem lookup_none_iff (c : String) :
    ∀ (cols : List (String × PType)),
      cols.lookup c = none ↔ c ∉ cols.map Prod.fst := by
  intro cols
  induction cols with
  | nil => simp [List.lookup]
  | cons p ps ih =>
      obtain ⟨pn, pt⟩ := p
      simp only [List.lookup, List.map_cons, List.mem_cons]
      by_cases hc : c = pn
      · subst hc
        simp
      · have hb : (c == pn) = false := by simp [hc]
        rw [hb]
        simp [ih, hc]

theorem map_fst_keyed (tp : String → PType) (u : List String) :
    (u.map (fun c => (c, tp c))).map Prod.fst = u := by
  induction u with
  | nil => rfl
  | cons b bs ih => simp [ih]

theorem colNames_fill (f : PFrame) (u : List String) :
    colNames (fill_missing_columns f u) = u := by
  unfold colNames fill_missing_columns
  exact map_fst_keyed _ u

theorem height_fill (f : PFrame) (u : List String) :
    (fill_missing_columns f u).rows.length = f.rows.length := by
  simp [fill_missing_columns]

theorem rowlen_fill (f : PFrame) (u : List String) :
    ∀ r ∈ (fill_missing_columns f u).rows, r.length = u.length := by
  intro r hr
  simp only [fill_missing_columns, List.mem_map] at hr
  obtain ⟨r0, _, he⟩ := hr
  rw [← he]
  simp

theorem getVal_fill (f : PFrame) (u : List String) (c : String) (r : List PValue) :
    getVal (fill_missing_columns f u).cols
        (u.map (fun x => if hasCol f x then getVal f.cols r x else PValue.null)) c =
      (if c ∈ u then (if hasCol f c then getVal f.cols r c else PValue.null)
       else PValue.null) := by
  unfold fill_missing_columns
  exact getVal_construct _ _ c u

theorem dtypeOf_fill (f : PFrame) (u : List String) (c : String) (hc : c ∈ u) :
    dtypeOf (fill_missing_columns f u) c =
      (if hasCol f c then dtypeOf f c else PType.tNull) := by
  unfold dtypeOf fill_missing_columns
  rw [lookup_construct]
  rw [if_pos hc]
  rfl

theorem frameAsOfKeys_fill (f : PFrame) (u : List String)
    (hmem : "as_of" ∈ u) (hhas : hasCol f "as_of" = true) :
    frameAsOfKeys (fill_missing_columns f u) = frameAsOfKeys f := by
  unfold frameAsOfKeys asOfCell
  show (fill_missing_columns f u).rows.map _ = _
  unfold fill_missing_columns
  simp only [List.map_map]
  apply List.map_congr_left
  intro r _
  simp only [Function.comp]
  rw [getVal_construct]
  rw [if_pos hmem, if_pos hhas]

theorem frameAsOfKeys_mapStage (T : String × PType → PType)
    (V : String × PType → PValue → PValue) (f : PFrame)
    (hV : ∀ t v, f.cols.lookup "as_of" = some t → V ("as_of", t) v = v) :
    ∀ (_ : ∀ r ∈ f.rows, r.length = f.cols.length),
    frameAsOfKeys
      { cols := f.cols.map (fun p => (p.1, T p)),
        rows := f.rows.map (fun r => List.zipWith V f.cols r) } =
      frameAsOfKeys f := by
  intro hlen
  unfold frameAsOfKeys asOfCell
  simp only [List.map_map]
  apply List.map_congr_left
  intro r hr
  simp only [Function.comp]
  rw [getVal_zipWith T V "as_of" f.cols r (hlen r hr)]
  cases hl : f.cols.lookup "as_of" with
  | none =>
      rw [getVal_not_mem _ _ _ ((lookup_none_iff _ _).mp hl)]
  | some t =>
      exact hV t _ hl

theorem uniqueByAsOfFuel_invariant (cols : List (String × PType)) :
    ∀ (n m : Nat) (l : List (List PValue)), l.length ≤ n → l.length ≤ m →
      uniqueByAsOfFuel cols n l = uniqueByAsOfFuel cols m l := by
  intro n
  induction n with
  | zero =>
      intro m l hn _
      rw [List.length_eq_zero.mp (Nat.le_zero.mp hn)]
      cases m <;> rfl
  | succ n ih =>
      intro m l hn hm
      cases l with
      | nil => cases m <;> rfl
      | cons r rs =>
          cases m with
          | zero => simp at hm
          | succ m =>
              show r :: uniqueByAsOfFuel cols n _ = r :: uniqueByAsOfFuel cols m _
              simp only [List.length_cons, Nat.succ_le_succ_iff] at hn hm
              rw [ih m _ (le_trans (List.length_filter_le _ _) hn)
                (le_trans (List.length_filter_le _ _) hm)]

theorem uniqueByAsOf_nil (cols : List (String × PType)) : uniqueByAsOf cols [] = [] := rfl

theorem uniqueByAsOf_cons (cols : List (String × PType)) (r : List PValue)
    (rs : List (List PValue)) :
    uniqueByAsOf cols (r :: rs) =
      r :: uniqueByAsOf cols (rs.filter (fun x => asOfCell cols x != asOfCell cols r)) := by
  unfold uniqueByAsOf
  show r :: uniqueByAsOfFuel cols rs.length _ = _
  rw [uniqueByAsOfFuel_invariant cols rs.length
    (rs.filter (fun x => asOfCell cols x != asOfCell cols r)).length _
    (List.length_filter_le _ _) le_rfl]

theorem any_filter_ne (cols : List (String × PType)) (v : PValue) (r : List PValue)
    (hv : asOfCell cols r ≠ v) :
    ∀ (rs : List (List PValue)),
      ((rs.filter (fun x => asOfCell cols x != asOfCell cols r)).any
        (fun x => asOfCell cols x == v)) = rs.any (fun x => asOfCell cols x == v) := by
  intro rs
  induction rs with
  | nil => simp
  | cons y ys ihy =>
      by_cases hy : asOfCell cols y = asOfCell cols r
      · have hne : (asOfCell cols y != asOfCell cols r) = false := by simp [hy]
        rw [List.filter_cons, hne]
        simp only [Bool.false_eq_true, if_false]
        rw [ihy]
        have hyv : (asOfCell cols y == v) = false := by
          simp only [beq_eq_false_iff_ne, ne_eq]
          rw [hy]
          exact hv
        simp [List.any_cons, hyv]
      · have hne : (asOfCell cols y != asOfCell cols r) = true := by simp [hy]
        rw [List.filter_cons, hne]
        simp only [if_true]
        simp only [List.any_cons]
        rw [ihy]

theorem uniqueByAsOf_countP (cols : List (String × PType)) (v : PValue) :
    ∀ (n : Nat) (l : List (List PValue)), l.length ≤ n →
      (uniqueByAsOf cols l).countP (fun r => asOfCell cols r == v) =
        if l.any (fun r => asOfCell cols r == v) then 1 else 0 := by
  intro n
  induction n with
  | zero =>
      intro l hl
      rw [List.length_eq_zero.mp (Nat.le_zero.mp hl)]
      simp [uniqueByAsOf_nil]
  | succ n ih =>
      intro l hl
      cases l with
      | nil => simp [uniqueByAsOf_nil]
      | cons r rs =>
          rw [uniqueByAsOf_cons, List.countP_cons]
          simp only [List.length_cons, Nat.succ_le_succ_iff] at hl
          rw [ih _ (le_trans (List.length_filter_le _ _) hl)]
          by_cases hv : asOfCell cols r = v
          · have hb : (asOfCell cols r == v) = true := by simp [hv]
            have hany : (rs.filter (fun x => asOfCell cols x != asOfCell cols r)).any
                (fun r => asOfCell cols r == v) = false := by
              rw [List.any_eq_false]
              intro x hx
              rcases List.mem_filter.mp hx with ⟨_, hne⟩
              simp only [bne_iff_ne, ne_eq] at hne
              simp only [beq_iff_eq]
              rw [hv] at hne
              exact hne
            rw [hany, hb]
            simp [List.any_cons, hb]
          · have hb : (asOfCell cols r == v) = false := by simp [hv]
            rw [any_filter_ne cols v r hv rs, hb]
            simp [List.any_cons, hb]

theorem uniqueByAsOf_nodup_id (cols : List (String × PType)) :
    ∀ (n : Nat) (l : List (List PValue)), l.length ≤ n →
      (l.map (asOfCell cols)).Nodup → uniqueByAsOf cols l = l := by
  intro n
  induction n with
  | zero =>
      intro l hl _
      rw [List.length_eq_zero.mp (Nat.le_zero.mp hl)]
      exact uniqueByAsOf_nil cols
  | succ n ih =>
      intro l hl hnd
      cases l with
      | nil => exact uniqueByAsOf_nil cols
      | cons r rs =>
          rw [uniqueByAsOf_cons]
          simp only [List.map_cons, List.nodup_cons] at hnd
          have hfilter : rs.filter (fun x => asOfCell cols x != asOfCell cols r) = rs := by
            apply List.filter_eq_self.mpr
            intro x hx
            simp only [bne_iff_ne, ne_eq]
            intro he
            exact hnd.1 (he ▸ List.mem_map_of_mem (asOfCell cols) hx)
          rw [hfilter]
          simp only [List.length_cons, Nat.succ_le_succ_iff] at hl
          rw [ih rs hl hnd.2]

theorem uniqueByAsOf_append_drop (cols : List (String × PType)) :
    ∀ (n : Nat) (xs ys : List (List PValue)), xs.length ≤ n →
      (∀ y ∈ ys, asOfCell cols y ∈ xs.map (asOfCell cols)) →
      uniqueByAsOf cols (xs ++ ys) = uniqueByAsOf cols xs := by
  intro n
  induction n with
  | zero =>
      intro xs ys hxs hkeys
      rw [List.length_eq_zero.mp (Nat.le_zero.mp hxs)]
      rw [List.length_eq_zero.mp (Nat.le_zero.mp hxs)] at hkeys
      have hys : ys = [] := by
        apply List.eq_nil_iff_forall_not_mem.mpr
        intro y hy
        simpa using hkeys y hy
      rw [hys]
      rfl
  | succ n ih =>
      intro xs ys hxs hkeys
      cases xs with
      | nil =>
          have hys : ys = [] := by
            apply List.eq_nil_iff_forall_not_mem.mpr
            intro y hy
            simpa using hkeys y hy
          rw [hys]
          rfl
      | cons x xs2 =>
          rw [List.cons_append, uniqueByAsOf_cons, uniqueByAsOf_cons,
            List.filter_append]
          simp only [List.length_cons, Nat.succ_le_succ_iff] at hxs
          rw [ih _ _ (le_trans (List.length_filter_le _ _) hxs)]
          intro y hy
          rcases List.mem_filter.mp hy with ⟨hmem, hne⟩
          have hk := hkeys y hmem
          simp only [List.map_cons, List.mem_cons] at hk
          rcases hk with h | h
          · exfalso
            simp only [bne_iff_ne, ne_eq] at hne
            exact hne h
          · rcases List.mem_map.mp h with ⟨z, hz, hze⟩
            apply List.mem_map.mpr
            refine ⟨z, ?_, hze⟩
            apply List.mem_filter.mpr
            refine ⟨hz, ?_⟩
            simp only [bne_iff_ne, ne_eq]
            rw [hze]
            simpa using hne

theorem insertByAsOf_perm (cols : List (String × PType)) (r : List PValue) :
    ∀ (l : List (List PValue)), List.Perm (insertByAsOf cols r l) (r :: l) := by
  intro l
  induction l with
  | nil => simp [insertByAsOf]
  | cons x xs ih =>
      unfold insertByAsOf
      by_cases h : asOfQ cols r ≤ asOfQ cols x
      · rw [if_pos h]
      · rw [if_neg h]
        exact (ih.cons x).trans (List.Perm.swap r x xs)

theorem sortRowsByAsOf_perm (cols : List (String × PType)) :
    ∀ (l : List (List PValue)), List.Perm (sortRowsByAsOf cols l) l := by
  intro l
  induction l with
  | nil => simp [sortRowsByAsOf]
  | cons r rs ih =>
      unfold sortRowsByAsOf
      exact (insertByAsOf_perm cols r _).trans (ih.cons r)

theorem colNames_addConstCol (f : PFrame) (c : String) (t : PType) (v : PValue) :
    colNames (addConstCol f c t v) = colNames f ++ [c] := by
  simp [colNames, addConstCol]

theorem height_addConstCol (f : PFrame) (c : String) (t : PType) (v : PValue) :
    (addConstCol f c t v).rows.length = f.rows.length := by
  simp [addConstCol]

theorem frameAsOfKeys_addConstCol (f : PFrame) (c : String) (t : PType) (v : PValue)
    (hlen : ∀ r ∈ f.rows, r.length = f.cols.length) (hne : "as_of" ≠ c) :
    frameAsOfKeys (addConstCol f c t v) = frameAsOfKeys f := by
  unfold frameAsOfKeys addConstCol asOfCell
  simp only [List.map_map]
  apply List.map_congr_left
  intro r hr
  simp only [Function.comp]
  rw [getVal_append_single c t v "as_of" f.cols r (hlen r hr)]
  by_cases hm : "as_of" ∈ f.cols.map Prod.fst
  · rw [if_pos hm]
  · rw [if_neg hm, if_neg hne, getVal_not_mem _ _ _ hm]

theorem dtypeOf_addConstCol (f : PFrame) (c : String) (t : PType) (v : PValue)
    (a : String) :
    dtypeOf (addConstCol f c t v) a =
      (if a ∈ colNames f then dtypeOf f a
       else if a = c then t else PType.tNull) := by
  unfold dtypeOf addConstCol colNames
  rw [lookup_append_single]
  by_cases hm : a ∈ f.cols.map Prod.fst
  · rw [if_pos hm, if_pos hm]
  · rw [if_neg hm, if_neg hm]
    by_cases ha : a = c
    · rw [if_pos ha, if_pos ha]
    · rw [if_neg ha, if_neg ha]

theorem getVal_addConstCol (f : PFrame) (c : String) (t : PType) (v : PValue)
    (a : String) (r : List PValue) (hlen : r.length = f.cols.length) :
    getVal (addConstCol f c t v).cols (r ++ [v]) a =
      (if a ∈ colNames f then getVal f.cols r a
       else if a = c then v else PValue.null) := by
  unfold addConstCol colNames
  exact getVal_append_single c t v a f.cols r hlen

theorem dtypeOf_mapStage (T : String × PType → PType) (R : List (List PValue))
    (f : PFrame) (c : String) :
    dtypeOf { cols := f.cols.map (fun p => (p.1, T p)), rows := R } c =
      (match f.cols.lookup c with
       | some t => T (c, t)
       | none => PType.tNull) := by
  unfold dtypeOf
  rw [lookup_map_dtype]
  cases f.cols.lookup c <;> rfl

theorem lookup_buildCastSchema (fe fn : PFrame) (c : String) :
    ∀ (u : List String),
      (buildCastSchema u fe fn).lookup c =
        (if c ∈ u ∧ dtypeOf fe c ≠ dtypeOf fn c
         then some (castTarget (dtypeOf fe c) (dtypeOf fn c)) else none) := by
  intro u
  induction u with
  | nil => simp [buildCastSchema, List.lookup]
  | cons b bs ih =>
      unfold buildCastSchema
      rw [List.filterMap_cons]
      unfold buildCastSchema at ih
      by_cases hd : dtypeOf fe b = dtypeOf fn b
      · simp only [hd]
        rw [if_pos trivial]
        rw [ih]
        by_cases hb : c = b
        · subst hb
          simp [hd]
        · by_cases hm : c ∈ bs
          · simp [hm, hb]
          · simp [hm, hb]
      · rw [if_neg hd]
        by_cases hb : c = b
        · subst hb
          simp only [List.lookup]
          have hbeq : (c == c) = true := by simp
          rw [hbeq]
          simp [hd]
        · simp only [List.lookup]
          have hbeq : (c == b) = false := by simp [hb]
          rw [hbeq, ih]
          by_cases hm : c ∈ bs
          · simp [hm, hb]
          · simp [hm, hb]

theorem hasCol_iff_mem (f : PFrame) (c : String) :
    hasCol f c = true ↔ c ∈ colNames f := by
  unfold hasCol List.contains
  exact List.elem_iff

theorem lookup_eq_some_dtype (f : PFrame) (c : String) (h : hasCol f c = true) :
    f.cols.lookup c = some (dtypeOf f c) := by
  cases hl : f.cols.lookup c with
  | none =>
      exfalso
      exact ((lookup_none_iff c f.cols).mp hl) ((hasCol_iff_mem f c).mp h)
  | some t =>
      unfold dtypeOf
      rw [hl]

theorem getVal_names_congr :
    ∀ (cols1 cols2 : List (String × PType)),
      cols1.map Prod.fst = cols2.map Prod.fst →
      ∀ (r : List PValue) (c : String), getVal cols1 r c = getVal cols2 r c := by
  intro cols1
  induction cols1 with
  | nil =>
      intro cols2 hm r c
      rw [List.eq_nil_of_map_eq_nil hm.symm]
  | cons p ps ih =>
      intro cols2 hm r c
      cases cols2 with
      | nil => simp at hm
      | cons q qs =>
          simp only [List.map_cons, List.cons.injEq] at hm
          cases r with
          | nil => rfl
          | cons v vs =>
              simp only [getVal]
              rw [hm.1]
              by_cases hc : q.1 = c
              · rw [if_pos hc, if_pos hc]
              · rw [if_neg hc, if_neg hc]
                exact ih qs hm.2 vs c

theorem colNames_castRound (f : PFrame) :
    colNames (cast_and_round_numeric f) = colNames f := by
  unfold colNames cast_and_round_numeric
  exact colNames_mapT _ _

theorem colNames_castFrame (f : PFrame) (sch : List (String × PType)) :
    colNames (castFrame f sch) = colNames f := by
  unfold colNames castFrame
  exact colNames_mapT _ _

theorem height_castRound (f : PFrame) :
    (cast_and_round_numeric f).rows.length = f.rows.length := by
  simp [cast_and_round_numeric]

theorem height_castFrame (f : PFrame) (sch : List (String × PType)) :
    (castFrame f sch).rows.length = f.rows.length := by
  simp [castFrame]

theorem RowsOK_fill (f : PFrame) (u : List String) :
    RowsOK (fill_missing_columns f u) := by
  intro r hr
  rw [rowlen_fill f u r hr]
  simp [fill_missing_columns]

theorem RowsOK_castRound (f : PFrame) (h : RowsOK f) :
    RowsOK (cast_and_round_numeric f) := by
  intro r hr
  simp only [cast_and_round_numeric, List.mem_map] at hr ⊢
  obtain ⟨r0, hr0, he⟩ := hr
  rw [← he, List.length_zipWith, h r0 hr0, List.length_map]
  simp

theorem RowsOK_castFrame (f : PFrame) (sch : List (String × PType)) (h : RowsOK f) :
    RowsOK (castFrame f sch) := by
  intro r hr
  simp only [castFrame, List.mem_map] at hr ⊢
  obtain ⟨r0, hr0, he⟩ := hr
  rw [← he, List.length_zipWith, h r0 hr0, List.length_map]
  simp

theorem RowsOK_addConstCol (f : PFrame) (c : String) (t : PType) (v : PValue)
    (h : RowsOK f) : RowsOK (addConstCol f c t v) := by
  intro r hr
  simp only [addConstCol, List.mem_map] at hr ⊢
  obtain ⟨r0, hr0, he⟩ := hr
  rw [← he]
  simp [h r0 hr0]

theorem RowsOK_ensureValidationCol (f : PFrame) (c : String) (h : RowsOK f) :
    RowsOK (ensureValidationCol f c) := by
  unfold ensureValidationCol
  by_cases hc : hasCol f c
  · rw [if_pos hc]
    exact h
  · rw [if_neg hc]
    exact RowsOK_addConstCol f c _ _ h

theorem RowsOK_ensureValidationCols (f : PFrame) (h : RowsOK f) :
    RowsOK (ensureValidationCols f) :=
  RowsOK_ensureValidationCol _ _ (RowsOK_ensureValidationCol _ _ h)

theorem frameAsOfKeys_castRound (f : PFrame) (hlen : RowsOK f)
    (hnum : is_numeric_dtype (dtypeOf f "as_of") = false) :
    frameAsOfKeys (cast_and_round_numeric f) = frameAsOfKeys f := by
  unfold cast_and_round_numeric
  apply frameAsOfKeys_mapStage _ _ f _ hlen
  intro t v hl
  have ht : dtypeOf f "as_of" = t := by
    unfold dtypeOf
    rw [hl]
  unfold roundCastCell
  rw [if_neg ?_]
  rw [← ht, hnum]
  simp

theorem frameAsOfKeys_castFrame (f : PFrame) (sch : List (String × PType))
    (hlen : RowsOK f) (hsch : sch.lookup "as_of" = none) :
    frameAsOfKeys (castFrame f sch) = frameAsOfKeys f := by
  unfold castFrame
  apply frameAsOfKeys_mapStage _ _ f _ hlen
  intro t v _
  simp only [hsch]

theorem hasCol_ensureValidationCol (f : PFrame) (c a : String)
    (h : hasCol f a = true) : hasCol (ensureValidationCol f c) a = true := by
  unfold ensureValidationCol
  by_cases hc : hasCol f c
  · rw [if_pos hc]
    exact h
  · rw [if_neg hc]
    rw [hasCol_iff_mem] at h ⊢
    rw [colNames_addConstCol]
    exact List.mem_append_left _ h

theorem dtypeOf_ensureValidationCol (f : PFrame) (c a : String)
    (h : hasCol f a = true) :
    dtypeOf (ensureValidationCol f c) a = dtypeOf f a := by
  unfold ensureValidationCol
  by_cases hc : hasCol f c
  · rw [if_pos hc]
  · rw [if_neg hc]
    rw [dtypeOf_addConstCol]
    rw [if_pos ((hasCol_iff_mem f a).mp h)]

theorem frameAsOfKeys_ensureValidationCol (f : PFrame) (c : String)
    (hlen : RowsOK f) (hne : "as_of" ≠ c) :
    frameAsOfKeys (ensureValidationCol f c) = frameAsOfKeys f := by
  unfold ensureValidationCol
  by_cases hc : hasCol f c
  · rw [if_pos hc]
  · rw [if_neg hc]
    exact frameAsOfKeys_addConstCol f c _ _ hlen hne

theorem frameAsOfKeys_ensureValidationCols (f : PFrame) (hlen : RowsOK f) :
    frameAsOfKeys (ensureValidationCols f) = frameAsOfKeys f := by
  unfold ensureValidationCols
  rw [frameAsOfKeys_ensureValidationCol _ _
    (RowsOK_ensureValidationCol _ _ hlen) (by decide)]
  exact frameAsOfKeys_ensureValidationCol _ _ hlen (by decide)

theorem hasCol_ensureValidationCols (f : PFrame) (a : String)
    (h : hasCol f a = true) : hasCol (ensureValidationCols f) a = true :=
  hasCol_ensureValidationCol _ _ _ (hasCol_ensureValidationCol _ _ _ h)

theorem dtypeOf_ensureValidationCols (f : PFrame) (a : String)
    (h : hasCol f a = true) :
    dtypeOf (ensureValidationCols f) a = dtypeOf f a := by
  unfold ensureValidationCols
  rw [dtypeOf_ensureValidationCol _ _ _ (hasCol_ensureValidationCol _ _ _ h)]
  exact dtypeOf_ensureValidationCol _ _ _ h

theorem uniqueByAsOf_sublist (cols : List (String × PType)) :
    ∀ (n : Nat) (l : List (List PValue)), l.length ≤ n →
      List.Sublist (uniqueByAsOf cols l) l := by
  intro n
  induction n with
  | zero =>
      intro l hl
      rw [List.length_eq_zero.mp (Nat.le_zero.mp hl)]
      rw [uniqueByAsOf_nil]
  | succ n ih =>
      intro l hl
      cases l with
      | nil => rw [uniqueByAsOf_nil]
      | cons r rs =>
          rw [uniqueByAsOf_cons]
          simp only [List.length_cons, Nat.succ_le_succ_iff] at hl
          apply List.Sublist.cons₂
          exact (ih _ (le_trans (List.length_filter_le _ _) hl)).trans
            (List.filter_sublist rs)

theorem RowsOK_coalesceCol (f : PFrame) (c : String) (h : RowsOK f) :
    RowsOK (coalesceCol f c) := by
  unfold coalesceCol
  by_cases hc : hasCol f c
  · rw [if_pos hc]
    intro r hr
    simp only [List.mem_map] at hr
    obtain ⟨r0, hr0, he⟩ := hr
    rw [← he, List.length_zipWith, h r0 hr0, List.length_map]
    simp
  · rw [if_neg hc]
    exact RowsOK_addConstCol f c _ _ h

theorem frameAsOfKeys_coalesceCol (f : PFrame) (c : String) (hlen : RowsOK f)
    (hne : "as_of" ≠ c) :
    frameAsOfKeys (coalesceCol f c) = frameAsOfKeys f := by
  unfold coalesceCol
  by_cases hc : hasCol f c
  · rw [if_pos hc]
    apply frameAsOfKeys_mapStage (fun p => if p.1 = c then PType.tUtf8 else p.2)
      (fun p v => if p.1 = c then coalesceEmpty v else v) f _ hlen
    intro t v _
    simp only [if_neg hne]
  · rw [if_neg hc]
    exact frameAsOfKeys_addConstCol f c _ _ hlen hne

theorem frameAsOfKeys_coalesceValidationCols (f : PFrame) (hlen : RowsOK f) :
    frameAsOfKeys (coalesceValidationCols f) = frameAsOfKeys f := by
  unfold coalesceValidationCols
  rw [frameAsOfKeys_coalesceCol _ _ (RowsOK_coalesceCol _ _ hlen) (by decide)]
  exact frameAsOfKeys_coalesceCol _ _ hlen (by decide)

theorem countAsOf_keys_eq (f g : PFrame) (v : PValue)
    (h : frameAsOfKeys f = frameAsOfKeys g) : countAsOf f v = countAsOf g v := by
  unfold countAsOf
  rw [h]

theorem countAsOf_sortFrame (f : PFrame) (v : PValue) :
    countAsOf (sortFrameByAsOf f) v = countAsOf f v := by
  unfold countAsOf frameAsOfKeys sortFrameByAsOf
  exact List.Perm.countP_eq _ ((sortRowsByAsOf_perm f.cols f.rows).map _)

theorem c1_merged_unique_by_timepoint :
    ∀ (E N : PFrame) (v : PValue),
      RowsOK E → RowsOK N →
      hasCol E "as_of" = true → hasCol N "as_of" = true →
      dtypeOf E "as_of" = PType.tDate → dtypeOf N "as_of" = PType.tDate →
      (v ∈ frameAsOfKeys E ∨ v ∈ frameAsOfKeys N) →
      countAsOf (mergePipeline E N) v = 1 := by
  intro E N v hE hN hEa hNa hEd hNd hv
  set e1 := ensureValidationCols E with he1def
  set u := sortedUnionNames (colNames N) (colNames e1) with hudef
  set n1 := fill_missing_columns N u with hn1def
  set e2 := fill_missing_columns e1 u with he2def
  set n2 := cast_and_round_numeric n1 with hn2def
  set e3 := cast_and_round_numeric e2 with he3def
  set sch := buildCastSchema u e3 n2 with hschdef
  set n3 := castFrame n2 sch with hn3def
  set e4 := castFrame e3 sch with he4def
  have hM : mergePipeline E N =
      sortFrameByAsOf (coalesceValidationCols
        { cols := e4.cols, rows := uniqueByAsOf e4.cols (e4.rows ++ n3.rows) }) := rfl
  -- basic facts about e1
  have hRe1 : RowsOK e1 := RowsOK_ensureValidationCols E hE
  have hae1 : hasCol e1 "as_of" = true := hasCol_ensureValidationCols E "as_of" hEa
  have hde1 : dtypeOf e1 "as_of" = PType.tDate := by
    rw [dtypeOf_ensureValidationCols E "as_of" hEa]
    exact hEd
  have hke1 : frameAsOfKeys e1 = frameAsOfKeys E :=
    frameAsOfKeys_ensureValidationCols E hE
  -- as_of is in the union
  have hau : "as_of" ∈ u := by
    rw [hudef, mem_sortedUnionNames]
    exact Or.inl ((hasCol_iff_mem N "as_of").mp hNa)
  -- fill stage
  have hRe2 : RowsOK e2 := RowsOK_fill e1 u
  have hRn1 : RowsOK n1 := RowsOK_fill N u
  have hke2 : frameAsOfKeys e2 = frameAsOfKeys e1 :=
    frameAsOfKeys_fill e1 u hau hae1
  have hkn1 : frameAsOfKeys n1 = frameAsOfKeys N :=
    frameAsOfKeys_fill N u hau hNa
  have hde2 : dtypeOf e2 "as_of" = PType.tDate := by
    rw [he2def, dtypeOf_fill e1 u "as_of" hau, if_pos hae1]
    exact hde1
  have hdn1 : dtypeOf n1 "as_of" = PType.tDate := by
    rw [hn1def, dtypeOf_fill N u "as_of" hau, if_pos hNa]
    exact hNd
  have hce2 : colNames e2 = u := colNames_fill e1 u
  have hcn1 : colNames n1 = u := colNames_fill N u
  have hae2 : hasCol e2 "as_of" = true := by
    rw [hasCol_iff_mem, hce2]
    exact hau
  have han1 : hasCol n1 "as_of" = true := by
    rw [hasCol_iff_mem, hcn1]
    exact hau
  -- cast-and-round stage
  have hRe3 : RowsOK e3 := RowsOK_castRound e2 hRe2
  have hRn2 : RowsOK n2 := RowsOK_castRound n1 hRn1
  have hke3 : frameAsOfKeys e3 = frameAsOfKeys e2 := by
    apply frameAsOfKeys_castRound e2 hRe2
    rw [hde2]
    rfl
  have hkn2 : frameAsOfKeys n2 = frameAsOfKeys n1 := by
    apply frameAsOfKeys_castRound n1 hRn1
    rw [hdn1]
    rfl
  have hde3 : dtypeOf e3 "as_of" = PType.tDate := by
    rw [he3def]
    unfold cast_and_round_numeric
    rw [dtypeOf_mapStage, lookup_eq_some_dtype e2 "as_of" hae2, hde2]
    rfl
  have hdn2 : dtypeOf n2 "as_of" = PType.tDate := by
    rw [hn2def]
    unfold cast_and_round_numeric
    rw [dtypeOf_mapStage, lookup_eq_some_dtype n1 "as_of" han1, hdn1]
    rfl
  have hce3 : colNames e3 = u := by
    rw [he3def, colNames_castRound, hce2]
  have hcn2 : colNames n2 = u := by
    rw [hn2def, colNames_castRound, hcn1]
  -- schema has no as_of entry
  have hschnone : sch.lookup "as_of" = none := by
    rw [hschdef, lookup_buildCastSchema]
    rw [if_neg ?_]
    rintro ⟨_, hne⟩
    rw [hde3, hdn2] at hne
    exact hne rfl
  -- cast stage
  have hRe4 : RowsOK e4 := RowsOK_castFrame e3 sch hRe3
  have hRn3 : RowsOK n3 := RowsOK_castFrame n2 sch hRn2
  have hke4 : frameAsOfKeys e4 = frameAsOfKeys e3 :=
    frameAsOfKeys_castFrame e3 sch hRe3 hschnone
  have hkn3 : frameAsOfKeys n3 = frameAsOfKeys n2 :=
    frameAsOfKeys_castFrame n2 sch hRn2 hschnone
  have hce4 : colNames e4 = u := by
    rw [he4def, colNames_castFrame, hce3]
  have hcn3 : colNames n3 = u := by
    rw [hn3def, colNames_castFrame, hcn2]
  -- keys of the two inputs to the concat
  have hkeysE : frameAsOfKeys e4 = frameAsOfKeys E := by
    rw [hke4, hke3, hke2, hke1]
  have hkeysN : frameAsOfKeys n3 = frameAsOfKeys N := by
    rw [hkn3, hkn2, hkn1]
  -- the n3 rows keyed with e4 columns give the same keys
  have hcongr : ∀ r ∈ n3.rows, asOfCell e4.cols r = asOfCell n3.cols r := by
    intro r _
    unfold asOfCell
    apply getVal_names_congr
    show colNames e4 = colNames n3
    rw [hce4, hcn3]
  -- the combined frame
  set comb : PFrame :=
    { cols := e4.cols, rows := uniqueByAsOf e4.cols (e4.rows ++ n3.rows) } with hcombdef
  have hRcomb : RowsOK comb := by
    intro r hr
    have hsub : r ∈ e4.rows ++ n3.rows :=
      (uniqueByAsOf_sublist e4.cols (e4.rows ++ n3.rows).length _ le_rfl).mem hr
    rcases List.mem_append.mp hsub with h | h
    · exact hRe4 r h
    · show r.length = e4.cols.length
      rw [hRn3 r h]
      have h1 : n3.cols.length = u.length := by
        rw [← List.length_map n3.cols Prod.fst]
        show (colNames n3).length = u.length
        rw [hcn3]
      have h2 : e4.cols.length = u.length := by
        rw [← List.length_map e4.cols Prod.fst]
        show (colNames e4).length = u.length
        rw [hce4]
      rw [h1, h2]
  -- the count
  rw [hM, countAsOf_sortFrame,
    countAsOf_keys_eq _ _ v (frameAsOfKeys_coalesceValidationCols _ hRcomb)]
  show countAsOf comb v = 1
  unfold countAsOf frameAsOfKeys
  rw [List.countP_map]
  have hcnt := uniqueByAsOf_countP e4.cols v (e4.rows ++ n3.rows).length
    (e4.rows ++ n3.rows) le_rfl
  show List.countP ((fun k => k == v) ∘ asOfCell comb.cols)
    (uniqueByAsOf e4.cols (e4.rows ++ n3.rows)) = 1
  have hpred : ((fun k => k == v) ∘ asOfCell comb.cols) =
      (fun r => asOfCell e4.cols r == v) := rfl
  rw [hpred, hcnt]
  rw [if_pos ?_]
  rw [List.any_append]
  rcases hv with h | h
  · simp only [Bool.or_eq_true]
    left
    rw [← hkeysE] at h
    rcases List.mem_map.mp h with ⟨r, hr, hre⟩
    rw [List.any_eq_true]
    refine ⟨r, hr, ?_⟩
    unfold asOfCell at hre ⊢
    rw [hre]
    simp
  · simp only [Bool.or_eq_true]
    right
    rw [← hkeysN] at h
    rcases List.mem_map.mp h with ⟨r, hr, hre⟩
    rw [List.any_eq_true]
    refine ⟨r, hr, ?_⟩
    rw [hcongr r hr]
    unfold asOfCell at hre ⊢
    rw [hre]
    simp

theorem dtypeOf_castRound (f : PFrame) (c : String) (h : hasCol f c = true) :
    dtypeOf (cast_and_round_numeric f) c =
      (if is_numeric_dtype (dtypeOf f c) then PType.tFloat32 else dtypeOf f c) := by
  unfold cast_and_round_numeric
  rw [dtypeOf_mapStage, lookup_eq_some_dtype f c h]

theorem dtypeOf_castFrame (f : PFrame) (sch : List (String × PType)) (c : String)
    (h : hasCol f c = true) :
    dtypeOf (castFrame f sch) c =
      (match sch.lookup c with
       | some t => t
       | none => dtypeOf f c) := by
  unfold castFrame
  rw [dtypeOf_mapStage, lookup_eq_some_dtype f c h]

theorem hasCol_coalesceCol (f : PFrame) (c a : String) (h : hasCol f a = true) :
    hasCol (coalesceCol f c) a = true := by
  unfold coalesceCol
  by_cases hc : hasCol f c
  · rw [if_pos hc]
    rw [hasCol_iff_mem] at h ⊢
    show a ∈ (f.cols.map _).map Prod.fst
    rw [colNames_mapT]
    exact h
  · rw [if_neg hc]
    rw [hasCol_iff_mem] at h ⊢
    rw [colNames_addConstCol]
    exact List.mem_append_left _ h

theorem dtypeOf_coalesceCol (f : PFrame) (c a : String) (ha : hasCol f a = true)
    (hne : a ≠ c) : dtypeOf (coalesceCol f c) a = dtypeOf f a := by
  unfold coalesceCol
  by_cases hc : hasCol f c
  · rw [if_pos hc]
    rw [dtypeOf_mapStage, lookup_eq_some_dtype f a ha]
    simp [hne]
  · rw [if_neg hc]
    rw [dtypeOf_addConstCol]
    rw [if_pos ((hasCol_iff_mem f a).mp ha)]

theorem dtypeOf_sortFrame (f : PFrame) (a : String) :
    dtypeOf (sortFrameByAsOf f) a = dtypeOf f a := rfl

theorem dtypeOf_coalesceValidationCols (f : PFrame) (a : String)
    (ha : hasCol f a = true) (h1 : a ≠ "validation_status") (h2 : a ≠ "violations") :
    dtypeOf (coalesceValidationCols f) a = dtypeOf f a := by
  unfold coalesceValidationCols
  rw [dtypeOf_coalesceCol _ _ _ (hasCol_coalesceCol f _ a ha) h2]
  exact dtypeOf_coalesceCol _ _ _ ha h1

/-- C9 amended: whenever a column is shared by the existing table and the
new batch with numeric dtypes on both sides, the merged column's dtype is
Float32 — regardless of the input widths (both sides are first rounded and
cast to Float32 by cast_and_round_numeric, so the harmonization step never
sees two different numeric dtypes). -/
theorem c9_shared_numeric_columns_become_float32 :
    ∀ (E N : PFrame) (c : String),
      hasCol E c = true → hasCol N c = true →
      is_numeric_dtype (dtypeOf E c) = true →
      is_numeric_dtype (dtypeOf N c) = true →
      c ≠ "validation_status" → c ≠ "violations" →
      dtypeOf (mergePipeline E N) c = PType.tFloat32 := by
  intro E N c hEc hNc hEn hNn hv1 hv2
  set e1 := ensureValidationCols E with he1def
  set u := sortedUnionNames (colNames N) (colNames e1) with hudef
  set n1 := fill_missing_columns N u with hn1def
  set e2 := fill_missing_columns e1 u with he2def
  set n2 := cast_and_round_numeric n1 with hn2def
  set e3 := cast_and_round_numeric e2 with he3def
  set sch := buildCastSchema u e3 n2 with hschdef
  set n3 := castFrame n2 sch with hn3def
  set e4 := castFrame e3 sch with he4def
  have hM : mergePipeline E N =
      sortFrameByAsOf (coalesceValidationCols
        { cols := e4.cols, rows := uniqueByAsOf e4.cols (e4.rows ++ n3.rows) }) := rfl
  have hae1 : hasCol e1 c = true := hasCol_ensureValidationCols E c hEc
  have hde1 : dtypeOf e1 c = dtypeOf E c := dtypeOf_ensureValidationCols E c hEc
  have hcu : c ∈ u := by
    rw [hudef, mem_sortedUnionNames]
    exact Or.inr ((hasCol_iff_mem e1 c).mp hae1)
  have hde2 : dtypeOf e2 c = dtypeOf E c := by
    rw [he2def, dtypeOf_fill e1 u c hcu, if_pos hae1]
    exact hde1
  have hdn1 : dtypeOf n1 c = dtypeOf N c := by
    rw [hn1def, dtypeOf_fill N u c hcu, if_pos hNc]
  have hae2 : hasCol e2 c = true := by
    rw [hasCol_iff_mem, colNames_fill]
    exact hcu
  have han1 : hasCol n1 c = true := by
    rw [hasCol_iff_mem, colNames_fill]
    exact hcu
  have hde3 : dtypeOf e3 c = PType.tFloat32 := by
    rw [he3def, dtypeOf_castRound e2 c hae2, hde2, if_pos hEn]
  have hdn2 : dtypeOf n2 c = PType.tFloat32 := by
    rw [hn2def, dtypeOf_castRound n1 c han1, hdn1, if_pos hNn]
  have hschnone : sch.lookup c = none := by
    rw [hschdef, lookup_buildCastSchema]
    rw [if_neg ?_]
    rintro ⟨_, hne⟩
    rw [hde3, hdn2] at hne
    exact hne rfl
  have hae3 : hasCol e3 c = true := by
    rw [hasCol_iff_mem, he3def, colNames_castRound]
    rw [hasCol_iff_mem] at hae2
    exact hae2
  have hde4 : dtypeOf e4 c = PType.tFloat32 := by
    rw [he4def, dtypeOf_castFrame e3 sch c hae3, hschnone]
    exact hde3
  have hae4 : hasCol e4 c = true := by
    rw [hasCol_iff_mem, he4def, colNames_castFrame]
    rw [hasCol_iff_mem] at hae3
    exact hae3
  set comb : PFrame :=
    { cols := e4.cols, rows := uniqueByAsOf e4.cols (e4.rows ++ n3.rows) } with hcombdef
  have hacomb : hasCol comb c = true := hae4
  have hdcomb : dtypeOf comb c = PType.tFloat32 := hde4
  rw [hM, dtypeOf_sortFrame, dtypeOf_coalesceValidationCols _ _ hacomb hv1 hv2]
  exact hdcomb

/-- C1 counterexample: when the existing table and the new batch both hold a
row for as_of 100, the merged table has exactly one row for that TimePoint,
but it is the EXISTING table's row (x = 1), not the new batch's (x = 2):
polars unique with its default keep gives no new-rows-win guarantee, and in
the keep-first resolution the old row survives. -/
theorem c1_counterexample :
    countAsOf (mergePipeline eConflict nConflict) (PValue.num 100) = 1 ∧
    (mergePipeline eConflict nConflict).rows.map
        (fun r => getVal (mergePipeline eConflict nConflict).cols r "x") =
      [PValue.num 1] ∧
    PValue.num 1 ≠ PValue.num 2 := by
  with_unfolding_all decide

/-- C1 amended, witness: the conflicting upsert of as_of 100 leaves exactly
one row for that TimePoint. -/
theorem c1_merged_unique_by_timepoint_witness :
    countAsOf (mergePipeline eConflict nConflict) (PValue.num 100) = 1 :=
  c1_merged_unique_by_timepoint eConflict nConflict (PValue.num 100)
    (by with_unfolding_all decide) (by with_unfolding_all decide)
    (by with_unfolding_all decide) (by with_unfolding_all decide)
    (by with_unfolding_all decide) (by with_unfolding_all decide)
    (by with_unfolding_all decide)

/-- C9 counterexample: merging an existing Float64 column x with a Float32
batch column x yields a merged dtype of Float32, not the wider Float64 the
spec prescribes (both sides are rounded and cast to Float32 first). -/
theorem c9_counterexample :
    dtypeOf (mergePipeline eWide nWide) "x" = PType.tFloat32 ∧
    specWiderNumeric (dtypeOf eWide "x") (dtypeOf nWide "x") = PType.tFloat64 ∧
    PType.tFloat32 ≠ PType.tFloat64 := by
  with_unfolding_all decide

/-- C9 amended, witness: the shared numeric column x of the conflict sample
tables ends up Float32 in the merged table. -/
theorem c9_shared_numeric_columns_become_float32_witness :
    dtypeOf (mergePipeline eConflict nConflict) "x" = PType.tFloat32 :=
  c9_shared_numeric_columns_become_float32 eConflict nConflict "x"
    (by with_unfolding_all decide) (by with_unfolding_all decide)
    (by with_unfolding_all decide) (by with_unfolding_all decide)
    (by with_unfolding_all decide) (by with_unfolding_all decide)
/-! ## C3: schema union and null backfill -/

theorem mem_colNames_ensureValidationCol (f : PFrame) (c a : String) :
    a ∈ colNames (ensureValidationCol f c) ↔ a ∈ colNames f ∨ a = c := by
  unfold ensureValidationCol
  by_cases hc : hasCol f c
  · rw [if_pos hc]
    constructor
    · exact Or.inl
    · rintro (h | h)
      · exact h
      · rw [h]
        exact (hasCol_iff_mem f c).mp hc
  · rw [if_neg hc, colNames_addConstCol]
    simp

theorem mem_colNames_ensureValidationCols (f : PFrame) (a : String) :
    a ∈ colNames (ensureValidationCols f) ↔
      a ∈ colNames f ∨ a = "validation_status" ∨ a = "violations" := by
  unfold ensureValidationCols
  rw [mem_colNames_ensureValidationCol, mem_colNames_ensureValidationCol]
  tauto

theorem colNames_coalesceCol_of_hasCol (f : PFrame) (c : String)
    (h : hasCol f c = true) : colNames (coalesceCol f c) = colNames f := by
  unfold coalesceCol
  rw [if_pos h]
  show colNames { cols := f.cols.map _, rows := _ } = _
  unfold colNames
  exact colNames_mapT _ _

theorem colNames_sortFrame (f : PFrame) :
    colNames (sortFrameByAsOf f) = colNames f := rfl

theorem colNames_mergePipeline (e0 n0 : PFrame) :
    colNames (mergePipeline e0 n0) =
      sortedUnionNames (colNames n0) (colNames (ensureValidationCols e0)) := by
  unfold mergePipeline
  set u := sortedUnionNames (colNames n0) (colNames (ensureValidationCols e0)) with hu
  have hvs : "validation_status" ∈ u := by
    rw [hu, mem_sortedUnionNames]
    exact Or.inr ((mem_colNames_ensureValidationCols e0 _).mpr (Or.inr (Or.inl rfl)))
  have hvio : "violations" ∈ u := by
    rw [hu, mem_sortedUnionNames]
    exact Or.inr ((mem_colNames_ensureValidationCols e0 _).mpr (Or.inr (Or.inr rfl)))
  set comb : PFrame :=
    { cols := (castFrame (cast_and_round_numeric
        (fill_missing_columns (ensureValidationCols e0) u))
        (buildCastSchema u
          (cast_and_round_numeric (fill_missing_columns (ensureValidationCols e0) u))
          (cast_and_round_numeric (fill_missing_columns n0 u)))).cols,
      rows := _ } with hcomb
  show colNames (sortFrameByAsOf (coalesceValidationCols comb)) = u
  have hnames : colNames comb = u := by
    rw [hcomb]
    show colNames (castFrame _ _) = u
    rw [colNames_castFrame, colNames_castRound, colNames_fill]
  rw [colNames_sortFrame]
  unfold coalesceValidationCols
  rw [colNames_coalesceCol_of_hasCol, colNames_coalesceCol_of_hasCol, hnames]
  · rw [hasCol_iff_mem, hnames]
    exact hvs
  · rw [hasCol_iff_mem, colNames_coalesceCol_of_hasCol, hnames]
    · exact hvio
    · rw [hasCol_iff_mem, hnames]
      exact hvs

theorem height_ensureValidationCol (f : PFrame) (c : String) :
    (ensureValidationCol f c).rows.length = f.rows.length := by
  unfold ensureValidationCol
  by_cases h : hasCol f c
  · rw [if_pos h]
  · rw [if_neg h]
    exact height_addConstCol f c _ _

theorem height_ensureValidationCols (f : PFrame) :
    (ensureValidationCols f).rows.length = f.rows.length := by
  unfold ensureValidationCols
  rw [height_ensureValidationCol, height_ensureValidationCol]

theorem hasCol_false_iff (f : PFrame) (c : String) :
    hasCol f c = false ↔ c ∉ colNames f := by
  rw [← Bool.not_eq_true, hasCol_iff_mem]

theorem getVal_fill_not_hasCol (f : PFrame) (u : List String) (c : String)
    (hc : hasCol f c = false) :
    ∀ r ∈ (fill_missing_columns f u).rows,
      getVal (fill_missing_columns f u).cols r c = PValue.null := by
  intro r hr
  have hrows : (fill_missing_columns f u).rows = f.rows.map (fun r =>
      u.map (fun x => if hasCol f x then getVal f.cols r x else PValue.null)) := rfl
  rw [hrows] at hr
  obtain ⟨r0, _, he⟩ := List.mem_map.mp hr
  rw [← he, getVal_fill]
  rw [hc]
  simp

/-- C3, divergence: on the sample pair with existing columns A and as_of and
batch columns as_of and C, the merged table's column set is NOT the plain
union: save_or_append adds validation_status and violations, which neither
side had; moreover the backfilled violations cell on the existing-table side
of the merge is the empty string, not null. -/
theorem c3_counterexample :
    ("validation_status" ∈ colNames (mergePipeline eC3 nC3) ∧
     "validation_status" ∉ colNames eC3 ∧
     "validation_status" ∉ colNames nC3) ∧
    getVal (mergePipeline eC3 nC3).cols
        (List.headD (mergePipeline eC3 nC3).rows []) "violations" =
      PValue.str "" := by
  with_unfolding_all decide

/-- C3 amended: the merged table's column set is the union of the two sides'
column sets together with the always-added validation columns
validation_status and violations; column alignment preserves each side's row
count; and a column missing from one side is backfilled as null on that
side's aligned rows (for the existing side, provided it is not one of the
two validation columns, which are backfilled as empty strings instead). -/
theorem c3_schema_union (e0 n0 : PFrame) :
    (∀ a, a ∈ colNames (mergePipeline e0 n0) ↔
        a ∈ colNames n0 ∨ a ∈ colNames e0 ∨
        a = "validation_status" ∨ a = "violations") ∧
    (alignStage e0 n0).1.height = e0.height ∧
    (alignStage e0 n0).2.height = n0.height ∧
    (∀ c, hasCol e0 c = false → c ≠ "validation_status" → c ≠ "violations" →
      ∀ r ∈ (alignStage e0 n0).1.rows,
        getVal (alignStage e0 n0).1.cols r c = PValue.null) ∧
    (∀ c, hasCol n0 c = false →
      ∀ r ∈ (alignStage e0 n0).2.rows,
        getVal (alignStage e0 n0).2.cols r c = PValue.null) := by
  refine ⟨?_, ?_, ?_, ?_, ?_⟩
  · intro a
    rw [colNames_mergePipeline, mem_sortedUnionNames,
      mem_colNames_ensureValidationCols]
  · show (fill_missing_columns (ensureValidationCols e0) _).height = e0.height
    unfold PFrame.height
    rw [height_fill]
    exact height_ensureValidationCols e0
  · show (fill_missing_columns n0 _).height = n0.height
    unfold PFrame.height
    rw [height_fill]
  · intro c hc h1 h2 r hr
    apply getVal_fill_not_hasCol _ _ _ _ r hr
    rw [hasCol_false_iff, mem_colNames_ensureValidationCols]
    rw [hasCol_false_iff] at hc
    rintro (h | h | h)
    · exact hc h
    · exact h1 h
    · exact h2 h
  · intro c hc r hr
    exact getVal_fill_not_hasCol _ _ _ hc r hr

/-- C3 amended, witness: on the sample pair, violations is a merged column,
alignment preserves the batch's single row, and the aligned batch row has a
null A cell. -/
theorem c3_schema_union_witness :
    "violations" ∈ colNames (mergePipeline eC3 nC3) ∧
    (alignStage eC3 nC3).2.height = nC3.height ∧
    getVal (alignStage eC3 nC3).2.cols
      (List.headD (alignStage eC3 nC3).2.rows []) "A" = PValue.null := by
  obtain ⟨h1, _, h3, _, h5⟩ := c3_schema_union eC3 nC3
  refine ⟨(h1 "violations").mpr (Or.inr (Or.inr (Or.inr rfl))), h3, ?_⟩
  apply h5 "A" (by with_unfolding_all decide)
  with_unfolding_all decide

/-! ## C10: two-decimal rounding before persistence -/

theorem roundHalf_int (z : ℤ) : roundHalfAwayFromZero (z : ℚ) = z := by
  unfold roundHalfAwayFromZero
  by_cases h : (0:ℚ) ≤ (z:ℚ)
  · rw [if_pos h, Int.floor_int_add]
    norm_num
  · rw [if_neg h]
    have h2 : -(z:ℚ) = ((-z : ℤ) : ℚ) := by push_cast; ring
    rw [h2, Int.floor_int_add]
    norm_num

theorem round2_idem (q : ℚ) : round2 (round2 q) = round2 q := by
  unfold round2
  rw [div_mul_cancel₀ _ (show (100:ℚ) ≠ 0 by norm_num), roundHalf_int]

theorem zipWith_snd_id :
    ∀ (cols : List (String × PType)) (r : List PValue), r.length = cols.length →
      List.zipWith (fun _ v => v) cols r = r := by
  intro cols
  induction cols with
  | nil =>
      intro r h
      rw [List.length_eq_zero.mp h]
      rfl
  | cons p ps ih =>
      intro r h
      cases r with
      | nil => simp at h
      | cons v vs =>
          simp only [List.length_cons, Nat.succ.injEq] at h
          simp only [List.zipWith_cons_cons]
          rw [ih vs h]

theorem castFrame_nil (f : PFrame) (h : RowsOK f) : castFrame f [] = f := by
  have hcols : (castFrame f []).cols = f.cols := by
    show f.cols.map _ = f.cols
    conv_rhs => rw [← List.map_id f.cols]
    apply List.map_congr_left
    intro p _
    rfl
  have hrows : (castFrame f []).rows = f.rows := by
    show f.rows.map _ = f.rows
    conv_rhs => rw [← List.map_id f.rows]
    apply List.map_congr_left
    intro r hr
    show List.zipWith _ f.cols r = r
    exact zipWith_snd_id f.cols r (h r hr)
  have he : castFrame f [] =
      { cols := (castFrame f []).cols, rows := (castFrame f []).rows } := rfl
  rw [he, hcols, hrows]

theorem dtypeOf_not_hasCol (f : PFrame) (c : String) (h : hasCol f c = false) :
    dtypeOf f c = PType.tNull := by
  unfold dtypeOf
  rw [(lookup_none_iff c f.cols).mpr ((hasCol_false_iff f c).mp h)]

theorem hasCol_coalesceCol_self (f : PFrame) (c : String) :
    hasCol (coalesceCol f c) c = true := by
  unfold coalesceCol
  by_cases hc : hasCol f c
  · rw [if_pos hc]
    rw [hasCol_iff_mem]
    show c ∈ (f.cols.map _).map Prod.fst
    rw [colNames_mapT]
    exact (hasCol_iff_mem f c).mp hc
  · rw [if_neg hc, hasCol_iff_mem, colNames_addConstCol]
    simp

theorem dtypeOf_coalesceCol_self (f : PFrame) (c : String) :
    dtypeOf (coalesceCol f c) c = PType.tUtf8 := by
  unfold coalesceCol
  by_cases hc : hasCol f c
  · rw [if_pos hc]
    rw [dtypeOf_mapStage, lookup_eq_some_dtype f c hc]
    simp
  · rw [if_neg hc]
    have hcf : hasCol f c = false := by simpa using hc
    rw [dtypeOf_addConstCol]
    rw [if_neg ((hasCol_false_iff f c).mp hcf), if_pos rfl]

theorem dtypeOf_coalesceValidationCols_vstatus (f : PFrame) :
    dtypeOf (coalesceValidationCols f) "validation_status" = PType.tUtf8 := by
  unfold coalesceValidationCols
  rw [dtypeOf_coalesceCol _ _ _ (hasCol_coalesceCol_self f _) (by decide)]
  exact dtypeOf_coalesceCol_self f _

theorem dtypeOf_coalesceValidationCols_viol (f : PFrame) :
    dtypeOf (coalesceValidationCols f) "violations" = PType.tUtf8 :=
  dtypeOf_coalesceCol_self _ _

theorem colNames_coalesceValidationCols (f : PFrame)
    (h1 : hasCol f "validation_status" = true)
    (h2 : hasCol f "violations" = true) :
    colNames (coalesceValidationCols f) = colNames f := by
  unfold coalesceValidationCols
  rw [colNames_coalesceCol_of_hasCol _ _ (hasCol_coalesceCol f _ _ h2)]
  exact colNames_coalesceCol_of_hasCol f _ h1

theorem rows_coalesceCol_of_hasCol (f : PFrame) (c : String)
    (hc : hasCol f c = true) :
    (coalesceCol f c).rows = f.rows.map (fun r =>
      List.zipWith (fun p v => if p.1 = c then coalesceEmpty v else v) f.cols r) := by
  unfold coalesceCol
  rw [if_pos hc]

theorem cols_coalesceCol_of_hasCol (f : PFrame) (c : String)
    (hc : hasCol f c = true) :
    (coalesceCol f c).cols =
      f.cols.map (fun p => (p.1, if p.1 = c then PType.tUtf8 else p.2)) := by
  unfold coalesceCol
  rw [if_pos hc]

theorem getVal_coalesceCol_other (f : PFrame) (c a : String) (hf : RowsOK f)
    (hc : hasCol f c = true) (hne : a ≠ c) :
    ∀ r ∈ (coalesceCol f c).rows, ∃ r0 ∈ f.rows,
      getVal (coalesceCol f c).cols r a = getVal f.cols r0 a := by
  intro r hr
  rw [rows_coalesceCol_of_hasCol f c hc] at hr
  obtain ⟨r0, hr0, he⟩ := List.mem_map.mp hr
  refine ⟨r0, hr0, ?_⟩
  rw [← he, cols_coalesceCol_of_hasCol f c hc,
    getVal_zipWith _ _ a f.cols r0 (hf r0 hr0)]
  cases hl : f.cols.lookup a with
  | none => rw [getVal_not_mem a f.cols r0 ((lookup_none_iff a f.cols).mp hl)]
  | some t =>
      show (if a = c then _ else _) = _
      rw [if_neg hne]

theorem getVal_castRound (f : PFrame) (c : String) (hf : RowsOK f)
    (hc : hasCol f c = true) :
    ∀ r ∈ f.rows,
      getVal (cast_and_round_numeric f).cols
          (List.zipWith (fun p v => roundCastCell p.2 v) f.cols r) c =
        roundCastCell (dtypeOf f c) (getVal f.cols r c) := by
  intro r hr
  show getVal (f.cols.map _) _ c = _
  rw [getVal_zipWith _ _ c f.cols r (hf r hr), lookup_eq_some_dtype f c hc]

theorem roundCastCell_num_fix (t : PType) (v : PValue) (q : ℚ)
    (ht : is_numeric_dtype t = true) (h : roundCastCell t v = PValue.num q) :
    round2 q = q := by
  unfold roundCastCell at h
  rw [if_pos ht] at h
  cases v with
  | num q0 =>
      simp only [PValue.num.injEq] at h
      rw [← h]
      exact round2_idem q0
  | null => simp at h
  | str s => simp at h
  | bool b => simp at h

theorem RowsOK_sortFrame (f : PFrame) (h : RowsOK f) :
    RowsOK (sortFrameByAsOf f) := by
  intro r hr
  exact h r (((sortRowsByAsOf_perm f.cols f.rows).mem_iff).mp hr)

/-- C10 amended: in a dtype-consistent merge (the harmonization schema is
empty, which holds whenever the batch carries the full schema of the
existing table), every numeric column of the written table has dtype
Float32 and every numeric cell value is a fixed point of two-decimal
half-away-from-zero rounding; and two batches whose cells round identically
at two decimals persist identically on a fresh write.  The claim's stronger
consequence — that rows agreeing merely THROUGH the second decimal place
persist identically — is refuted by the counterexample. -/
theorem c10_round_two_then_float32 :
    ∀ (E N df1 df2 : PFrame) (b : Bool),
      RowsOK E → RowsOK N → mergeSchemaOf E N = [] →
      ((∀ c, is_numeric_dtype (dtypeOf (mergePipeline E N) c) = true →
          dtypeOf (mergePipeline E N) c = PType.tFloat32) ∧
       (∀ (c : String) (q : ℚ), ∀ r ∈ (mergePipeline E N).rows,
          is_numeric_dtype (dtypeOf (mergePipeline E N) c) = true →
          getVal (mergePipeline E N).cols r c = PValue.num q → round2 q = q) ∧
       (cast_and_round_numeric df1 = cast_and_round_numeric df2 →
          save_or_append none df1 b = save_or_append none df2 b)) := by
  intro E N df1 df2 b hE hN hsch
  set e1 := ensureValidationCols E with he1def
  set u := sortedUnionNames (colNames N) (colNames e1) with hudef
  set n1 := fill_missing_columns N u with hn1def
  set e2 := fill_missing_columns e1 u with he2def
  set n2 := cast_and_round_numeric n1 with hn2def
  set e3 := cast_and_round_numeric e2 with he3def
  set sch := buildCastSchema u e3 n2 with hschdef
  have hsch0 : sch = [] := hsch
  set n3 := castFrame n2 sch with hn3def
  set e4 := castFrame e3 sch with he4def
  set comb : PFrame :=
    { cols := e4.cols, rows := uniqueByAsOf e4.cols (e4.rows ++ n3.rows) }
    with hcombdef
  have hM : mergePipeline E N = sortFrameByAsOf (coalesceValidationCols comb) := rfl
  have hRe1 : RowsOK e1 := RowsOK_ensureValidationCols E hE
  have hRe2 : RowsOK e2 := RowsOK_fill e1 u
  have hRn1 : RowsOK n1 := RowsOK_fill N u
  have hRe3 : RowsOK e3 := RowsOK_castRound e2 hRe2
  have hRn2 : RowsOK n2 := RowsOK_castRound n1 hRn1
  have hn3e : n3 = n2 := by
    rw [hn3def, hsch0]
    exact castFrame_nil n2 hRn2
  have he4e : e4 = e3 := by
    rw [he4def, hsch0]
    exact castFrame_nil e3 hRe3
  have hce3 : colNames e3 = u := by
    rw [he3def, colNames_castRound, he2def, colNames_fill]
  have hcn2 : colNames n2 = u := by
    rw [hn2def, colNames_castRound, hn1def, colNames_fill]
  have hccomb : colNames comb = u := by
    show colNames e4 = u
    rw [he4e]
    exact hce3
  have hvsu : "validation_status" ∈ u := by
    rw [hudef, mem_sortedUnionNames]
    exact Or.inr ((mem_colNames_ensureValidationCols E _).mpr (Or.inr (Or.inl rfl)))
  have hviou : "violations" ∈ u := by
    rw [hudef, mem_sortedUnionNames]
    exact Or.inr ((mem_colNames_ensureValidationCols E _).mpr (Or.inr (Or.inr rfl)))
  have hvsc : hasCol comb "validation_status" = true := by
    rw [hasCol_iff_mem, hccomb]
    exact hvsu
  have hvioc : hasCol comb "violations" = true := by
    rw [hasCol_iff_mem, hccomb]
    exact hviou
  have hdagree : ∀ c, c ∈ u → dtypeOf e3 c = dtypeOf n2 c := by
    intro c hcu
    by_contra hne
    have hl := lookup_buildCastSchema e3 n2 c u
    rw [← hschdef, hsch0, if_pos ⟨hcu, hne⟩] at hl
    simp [List.lookup] at hl
  have hdty : ∀ c, is_numeric_dtype (dtypeOf (mergePipeline E N) c) = true →
      (dtypeOf (mergePipeline E N) c = PType.tFloat32 ∧
       hasCol comb c = true ∧ c ≠ "validation_status" ∧ c ≠ "violations" ∧
       is_numeric_dtype (dtypeOf e2 c) = true ∧
       is_numeric_dtype (dtypeOf n1 c) = true) := by
    intro c hnum
    have hne1 : c ≠ "validation_status" := by
      intro h
      rw [hM, h, dtypeOf_sortFrame, dtypeOf_coalesceValidationCols_vstatus] at hnum
      simp [is_numeric_dtype] at hnum
    have hne2 : c ≠ "violations" := by
      intro h
      rw [hM, h, dtypeOf_sortFrame, dtypeOf_coalesceValidationCols_viol] at hnum
      simp [is_numeric_dtype] at hnum
    have hcc : hasCol comb c = true := by
      by_contra hfalse
      have hcf : hasCol comb c = false := by simpa using hfalse
      have hz : dtypeOf (mergePipeline E N) c = PType.tNull := by
        rw [hM, dtypeOf_sortFrame]
        apply dtypeOf_not_hasCol
        rw [hasCol_false_iff, colNames_coalesceValidationCols comb hvsc hvioc]
        exact (hasCol_false_iff comb c).mp hcf
      rw [hz] at hnum
      simp [is_numeric_dtype] at hnum
    have hstep : dtypeOf (mergePipeline E N) c = dtypeOf comb c := by
      rw [hM, dtypeOf_sortFrame]
      exact dtypeOf_coalesceValidationCols comb c hcc hne1 hne2
    have hcombe3 : dtypeOf comb c = dtypeOf e3 c := by
      show dtypeOf e4 c = dtypeOf e3 c
      rw [he4e]
    have hcu : c ∈ u := by
      rw [← hccomb, ← hasCol_iff_mem]
      exact hcc
    have hce2u : hasCol e2 c = true := by
      rw [hasCol_iff_mem, he2def, colNames_fill]
      exact hcu
    have hcn1u : hasCol n1 c = true := by
      rw [hasCol_iff_mem, hn1def, colNames_fill]
      exact hcu
    have hd : dtypeOf e3 c =
        (if is_numeric_dtype (dtypeOf e2 c) then PType.tFloat32
         else dtypeOf e2 c) := by
      rw [he3def]
      exact dtypeOf_castRound e2 c hce2u
    have hE2num : is_numeric_dtype (dtypeOf e2 c) = true := by
      by_contra hq
      rw [hstep, hcombe3, hd, if_neg hq] at hnum
      exact hq hnum
    have hdn : dtypeOf n2 c =
        (if is_numeric_dtype (dtypeOf n1 c) then PType.tFloat32
         else dtypeOf n1 c) := by
      rw [hn2def]
      exact dtypeOf_castRound n1 c hcn1u
    have hN1num : is_numeric_dtype (dtypeOf n1 c) = true := by
      by_contra hq
      rw [hstep, hcombe3, hdagree c hcu, hdn, if_neg hq] at hnum
      exact hq hnum
    refine ⟨?_, hcc, hne1, hne2, hE2num, hN1num⟩
    rw [hstep, hcombe3, hd, if_pos hE2num]
  refine ⟨fun c hnum => (hdty c hnum).1, ?_, ?_⟩
  · intro c q r hr hnum hval
    obtain ⟨hf32, hcc, hne1, hne2, hE2num, hN1num⟩ := hdty c hnum
    have hcu : c ∈ u := by
      rw [← hccomb, ← hasCol_iff_mem]
      exact hcc
    have hce2u : hasCol e2 c = true := by
      rw [hasCol_iff_mem, he2def, colNames_fill]
      exact hcu
    have hcn1u : hasCol n1 c = true := by
      rw [hasCol_iff_mem, hn1def, colNames_fill]
      exact hcu
    -- the shapes of the rows of comb
    have hRe4 : RowsOK e4 := by
      rw [he4e]
      exact hRe3
    have hRn3 : RowsOK n3 := by
      rw [hn3e]
      exact hRn2
    have hlencols : n3.cols.length = e4.cols.length := by
      rw [hn3e, he4e]
      have h1 : n2.cols.length = u.length := by
        rw [← List.length_map n2.cols Prod.fst]
        show (colNames n2).length = u.length
        rw [hcn2]
      have h2 : e3.cols.length = u.length := by
        rw [← List.length_map e3.cols Prod.fst]
        show (colNames e3).length = u.length
        rw [hce3]
      rw [h1, h2]
    have hRcomb : RowsOK comb := by
      intro r0 hr0
      show r0.length = e4.cols.length
      have hsub : r0 ∈ e4.rows ++ n3.rows :=
        (uniqueByAsOf_sublist e4.cols (e4.rows ++ n3.rows).length _ le_rfl).subset hr0
      rcases List.mem_append.mp hsub with h | h
      · exact hRe4 r0 h
      · rw [hRn3 r0 h]
        exact hlencols
    -- push the cell back through sort and the two coalesces
    have hr2 : r ∈ (coalesceValidationCols comb).rows := by
      rw [hM] at hr
      exact ((sortRowsByAsOf_perm _ _).mem_iff).mp hr
    have hgv1 : getVal (mergePipeline E N).cols r c =
        getVal (coalesceValidationCols comb).cols r c := rfl
    have hg1c : hasCol (coalesceCol comb "validation_status") "violations" = true :=
      hasCol_coalesceCol comb _ _ hvioc
    have hRg1 : RowsOK (coalesceCol comb "validation_status") :=
      RowsOK_coalesceCol comb _ hRcomb
    obtain ⟨r1, hr1, hgv2⟩ :=
      getVal_coalesceCol_other (coalesceCol comb "validation_status")
        "violations" c hRg1 hg1c hne2 r hr2
    obtain ⟨r2, hr2b, hgv3⟩ :=
      getVal_coalesceCol_other comb "validation_status" c hRcomb hvsc hne1 r1 hr1
    have hval2 : getVal comb.cols r2 c = PValue.num q := by
      rw [← hgv3, ← hgv2]
      show getVal (coalesceValidationCols comb).cols r c = PValue.num q
      rw [← hgv1]
      exact hval
    -- r2 is a row of one of the two rounded sides
    have hsub : r2 ∈ e4.rows ++ n3.rows :=
      (uniqueByAsOf_sublist e4.cols (e4.rows ++ n3.rows).length _ le_rfl).subset hr2b
    rcases List.mem_append.mp hsub with hside | hside
    · -- existing side
      rw [he4e] at hside
      have hrows3 : e3.rows = e2.rows.map (fun r =>
          List.zipWith (fun p v => roundCastCell p.2 v) e2.cols r) := by
        rw [he3def]
        rfl
      rw [hrows3] at hside
      obtain ⟨r3, hr3, hre⟩ := List.mem_map.mp hside
      have hcolseq : comb.cols.map Prod.fst = e3.cols.map Prod.fst := by
        show (colNames comb) = colNames e3
        rw [hccomb, hce3]
      have hgv4 : getVal comb.cols r2 c = getVal e3.cols r2 c :=
        getVal_names_congr comb.cols e3.cols hcolseq r2 c
      rw [hgv4, ← hre] at hval2
      rw [he3def] at hval2
      have hgr := getVal_castRound e2 c hRe2 hce2u r3 hr3
      rw [hgr] at hval2
      exact roundCastCell_num_fix _ _ q hE2num hval2
    · -- new-batch side
      rw [hn3e] at hside
      have hrows2 : n2.rows = n1.rows.map (fun r =>
          List.zipWith (fun p v => roundCastCell p.2 v) n1.cols r) := by
        rw [hn2def]
        rfl
      rw [hrows2] at hside
      obtain ⟨r3, hr3, hre⟩ := List.mem_map.mp hside
      have hcolseq : comb.cols.map Prod.fst = n2.cols.map Prod.fst := by
        show (colNames comb) = colNames n2
        rw [hccomb, hcn2]
      have hgv4 : getVal comb.cols r2 c = getVal n2.cols r2 c :=
        getVal_names_congr comb.cols n2.cols hcolseq r2 c
      rw [hgv4, ← hre] at hval2
      rw [hn2def] at hval2
      have hgr := getVal_castRound n1 c hRn1 hcn1u r3 hr3
      rw [hgr] at hval2
      exact roundCastCell_num_fix _ _ q hN1num hval2
  · intro hcast
    have h1 : save_or_append none df1 b =
        { table := sortFrameByAsOf (cast_and_round_numeric df1), changed := true } := by
      cases b <;> rfl
    have h2 : save_or_append none df2 b =
        { table := sortFrameByAsOf (cast_and_round_numeric df2), changed := true } := by
      cases b <;> rfl
    rw [h1, h2, hcast]

/-- C10 counterexample: x = 0.0049 and x = 0.0051 agree through the second
decimal place (both truncate to 0.00), yet the persisted cells differ
(0.00 versus 0.01): half-away-from-zero rounding at two decimals separates
them, so rows differing only beyond the second decimal place are NOT always
persisted identically. -/
theorem c10_counterexample :
    getVal (save_or_append none rowLo false).table.cols
        (List.headD (save_or_append none rowLo false).table.rows []) "x" =
      PValue.num 0 ∧
    getVal (save_or_append none rowHi false).table.cols
        (List.headD (save_or_append none rowHi false).table.rows []) "x" =
      PValue.num (1/100) ∧
    ⌊(49/10000 : ℚ) * 100⌋ = ⌊(51/10000 : ℚ) * 100⌋ := by
  with_unfolding_all decide

/-- C10 amended, witness: the sample merge has an empty harmonization
schema, and the merged head cell of the numeric column x is a fixed point
of two-decimal rounding. -/
theorem c10_round_two_then_float32_witness :
    mergeSchemaOf eC10 nC10 = [] ∧ round2 (123/100 : ℚ) = (123/100 : ℚ) := by
  refine ⟨by with_unfolding_all decide, ?_⟩
  exact (c10_round_two_then_float32 eC10 nC10 eC10 eC10 true
      (by with_unfolding_all decide) (by with_unfolding_all decide)
      (by with_unfolding_all decide)).2.1 "x" (123/100)
    (List.headD (mergePipeline eC10 nC10).rows [])
    (by with_unfolding_all decide) (by with_unfolding_all decide)
    (by with_unfolding_all decide)

/-! ## C2: replay idempotence and the changed flag -/

theorem lookup_self_of_nodup :
    ∀ (l : List (String × PType)), (l.map Prod.fst).Nodup →
      ∀ p ∈ l, l.lookup p.1 = some p.2 := by
  intro l
  induction l with
  | nil =>
      intro _ p hp
      cases hp
  | cons x xs ih =>
      intro hnd p hp
      obtain ⟨xn, xt⟩ := x
      simp only [List.map_cons, List.nodup_cons] at hnd
      rcases List.mem_cons.mp hp with h | h
      · rw [h]
        simp [List.lookup]
      · have hne : p.1 ≠ xn := by
          intro he
          apply hnd.1
          rw [← he]
          exact List.mem_map_of_mem Prod.fst h
        simp only [List.lookup]
        have hb : (p.1 == xn) = false := by simp [hne]
        rw [hb]
        exact ih hnd.2 p h

theorem getVal_self_row :
    ∀ (cols : List (String × PType)) (r : List PValue),
      (cols.map Prod.fst).Nodup → r.length = cols.length →
      cols.map (fun p => getVal cols r p.1) = r := by
  intro cols
  induction cols with
  | nil =>
      intro r _ h
      rw [List.length_eq_zero.mp h]
      rfl
  | cons x xs ih =>
      intro r hnd hlen
      cases r with
      | nil => simp at hlen
      | cons v vs =>
          simp only [List.length_cons, Nat.succ.injEq] at hlen
          simp only [List.map_cons, List.nodup_cons] at hnd
          simp only [List.map_cons]
          congr 1
          · show (if x.1 = x.1 then v else getVal xs vs x.1) = v
            rw [if_pos rfl]
          · refine Eq.trans (List.map_congr_left ?_) (ih vs hnd.2 hlen)
            intro p hp
            have hne : ¬ (x.1 = p.1) := by
              intro he
              apply hnd.1
              rw [he]
              exact List.mem_map_of_mem Prod.fst hp
            show (if x.1 = p.1 then v else getVal xs vs p.1) = getVal xs vs p.1
            rw [if_neg hne]

theorem fill_id (f : PFrame) (hr : RowsOK f) (hnd : (colNames f).Nodup) :
    fill_missing_columns f (colNames f) = f := by
  have hcols : (fill_missing_columns f (colNames f)).cols = f.cols := by
    show (colNames f).map _ = f.cols
    unfold colNames
    rw [List.map_map]
    refine Eq.trans (List.map_congr_left ?_) (List.map_id f.cols)
    intro p hp
    simp only [Function.comp]
    have hhc : hasCol f p.1 = true := by
      rw [hasCol_iff_mem]
      exact List.mem_map_of_mem Prod.fst hp
    rw [if_pos hhc]
    show (p.1, dtypeOf f p.1) = p
    unfold dtypeOf
    rw [lookup_self_of_nodup f.cols hnd p hp]
  have hrows : (fill_missing_columns f (colNames f)).rows = f.rows := by
    show f.rows.map _ = f.rows
    refine Eq.trans (List.map_congr_left ?_) (List.map_id f.rows)
    intro r hrm
    show (colNames f).map
      (fun c => if hasCol f c then getVal f.cols r c else PValue.null) = id r
    unfold colNames
    rw [List.map_map]
    refine Eq.trans (List.map_congr_left ?_) (getVal_self_row f.cols r hnd (hr r hrm))
    intro p hp
    simp only [Function.comp]
    have hhc : hasCol f p.1 = true := by
      rw [hasCol_iff_mem]
      exact List.mem_map_of_mem Prod.fst hp
    rw [if_pos hhc]
  have he : fill_missing_columns f (colNames f) =
      { cols := (fill_missing_columns f (colNames f)).cols,
        rows := (fill_missing_columns f (colNames f)).rows } := rfl
  rw [he, hcols, hrows]

theorem buildCastSchema_eq_nil_of_cols_eq (u : List String) (fe fn : PFrame)
    (h : fe.cols = fn.cols) : buildCastSchema u fe fn = [] := by
  unfold buildCastSchema
  apply List.filterMap_eq_nil_iff.mpr
  intro c _
  have hd : dtypeOf fe c = dtypeOf fn c := by
    unfold dtypeOf
    rw [h]
  show (if dtypeOf fe c = dtypeOf fn c then none
        else some (c, castTarget (dtypeOf fe c) (dtypeOf fn c))) = none
  rw [if_pos hd]

theorem roundCastCell_lift (t : PType) (v : PValue) :
    roundCastCell (if is_numeric_dtype t then PType.tFloat32 else t)
      (roundCastCell t v) = roundCastCell t v := by
  by_cases ht : is_numeric_dtype t = true
  · simp only [roundCastCell, ht, if_true]
    cases v <;> simp [round2_idem, is_numeric_dtype]
  · have ht2 : is_numeric_dtype t = false := by simpa using ht
    simp only [roundCastCell, ht2, Bool.false_eq_true, if_false]

theorem zip_roundCast_idem :
    ∀ (cols : List (String × PType)) (r : List PValue),
      List.zipWith (fun p v => roundCastCell p.2 v)
        (cols.map (fun p =>
          (p.1, if is_numeric_dtype p.2 then PType.tFloat32 else p.2)))
        (List.zipWith (fun p v => roundCastCell p.2 v) cols r) =
      List.zipWith (fun p v => roundCastCell p.2 v) cols r := by
  intro cols
  induction cols with
  | nil =>
      intro r
      rfl
  | cons p ps ih =>
      intro r
      cases r with
      | nil => rfl
      | cons v vs =>
          simp only [List.map_cons, List.zipWith_cons_cons]
          rw [ih vs]
          show roundCastCell (if is_numeric_dtype p.2 then PType.tFloat32 else p.2)
              (roundCastCell p.2 v) :: _ = roundCastCell p.2 v :: _
          rw [roundCastCell_lift]

theorem castRound_sort_idem (N : PFrame) :
    cast_and_round_numeric (sortFrameByAsOf (cast_and_round_numeric N)) =
      sortFrameByAsOf (cast_and_round_numeric N) := by
  have hcols : (cast_and_round_numeric
      (sortFrameByAsOf (cast_and_round_numeric N))).cols =
      (sortFrameByAsOf (cast_and_round_numeric N)).cols := by
    show (N.cols.map _).map _ = N.cols.map _
    rw [List.map_map]
    apply List.map_congr_left
    intro p _
    simp only [Function.comp]
    by_cases h : is_numeric_dtype p.2 = true
    · simp only [if_pos h]
      rfl
    · simp only [if_neg h]
  have hrows : (cast_and_round_numeric
      (sortFrameByAsOf (cast_and_round_numeric N))).rows =
      (sortFrameByAsOf (cast_and_round_numeric N)).rows := by
    show (sortFrameByAsOf (cast_and_round_numeric N)).rows.map _ =
      (sortFrameByAsOf (cast_and_round_numeric N)).rows
    refine Eq.trans (List.map_congr_left ?_)
      (List.map_id (sortFrameByAsOf (cast_and_round_numeric N)).rows)
    intro r hr
    have hrmem : r ∈ (cast_and_round_numeric N).rows :=
      ((sortRowsByAsOf_perm _ _).mem_iff).mp hr
    have hrowseq : (cast_and_round_numeric N).rows = N.rows.map (fun r =>
        List.zipWith (fun p v => roundCastCell p.2 v) N.cols r) := rfl
    rw [hrowseq] at hrmem
    obtain ⟨r0, _, hre⟩ := List.mem_map.mp hrmem
    show List.zipWith (fun p v => roundCastCell p.2 v)
        (sortFrameByAsOf (cast_and_round_numeric N)).cols r = id r
    rw [← hre]
    exact zip_roundCast_idem N.cols r0
  have he : cast_and_round_numeric (sortFrameByAsOf (cast_and_round_numeric N)) =
      { cols := (cast_and_round_numeric
          (sortFrameByAsOf (cast_and_round_numeric N))).cols,
        rows := (cast_and_round_numeric
          (sortFrameByAsOf (cast_and_round_numeric N))).rows } := rfl
  rw [he, hcols, hrows]

theorem ensureValidationCol_of_hasCol (f : PFrame) (c : String)
    (h : hasCol f c = true) : ensureValidationCol f c = f := by
  unfold ensureValidationCol
  rw [if_pos h]

theorem ensureValidationCols_of_hasCols (f : PFrame)
    (h1 : hasCol f "validation_status" = true)
    (h2 : hasCol f "violations" = true) : ensureValidationCols f = f := by
  unfold ensureValidationCols
  rw [ensureValidationCol_of_hasCol f _ h1, ensureValidationCol_of_hasCol f _ h2]

theorem coalesce_row_id (c : String) :
    ∀ (cols : List (String × PType)) (r : List PValue),
      strAtAll cols r c = true → r.length = cols.length →
      List.zipWith (fun p v => if p.1 = c then coalesceEmpty v else v) cols r = r := by
  intro cols
  induction cols with
  | nil =>
      intro r _ hlen
      rw [List.length_eq_zero.mp hlen]
      rfl
  | cons p ps ih =>
      intro r hs hlen
      cases r with
      | nil => rfl
      | cons v vs =>
          simp only [List.length_cons, Nat.succ.injEq] at hlen
          unfold strAtAll at hs
          simp only [List.zipWith_cons_cons, List.all_cons, Bool.and_eq_true,
            Bool.or_eq_true] at hs
          simp only [List.zipWith_cons_cons]
          congr 1
          · by_cases hc : p.1 = c
            · rw [if_pos hc]
              have hv : isStrVal v = true := by
                rcases hs.1 with h | h
                · exfalso
                  rw [bne_iff_ne] at h
                  exact h hc
                · exact h
              cases v with
              | str s => rfl
              | null => simp [isStrVal] at hv
              | num q => simp [isStrVal] at hv
              | bool b => simp [isStrVal] at hv
            · rw [if_neg hc]
          · exact ih vs hs.2 hlen

theorem isStrVal_roundCastCell (t : PType) (v : PValue) :
    isStrVal (roundCastCell t v) = isStrVal v := by
  unfold roundCastCell
  by_cases ht : is_numeric_dtype t = true
  · rw [if_pos ht]
    cases v <;> rfl
  · rw [if_neg ht]

theorem strAtAll_castRound (c : String) :
    ∀ (cols : List (String × PType)) (r : List PValue),
      strAtAll cols r c = true →
      strAtAll (cols.map (fun p =>
          (p.1, if is_numeric_dtype p.2 then PType.tFloat32 else p.2)))
        (List.zipWith (fun p v => roundCastCell p.2 v) cols r) c = true := by
  intro cols
  induction cols with
  | nil =>
      intro r h
      exact h
  | cons p ps ih =>
      intro r h
      cases r with
      | nil => rfl
      | cons v vs =>
          unfold strAtAll at h ⊢
          simp only [List.map_cons, List.zipWith_cons_cons, List.all_cons,
            Bool.and_eq_true] at h ⊢
          refine ⟨?_, ih vs h.2⟩
          show (p.1 != c || isStrVal (roundCastCell p.2 v)) = true
          rw [isStrVal_roundCastCell]
          exact h.1

theorem coalesceCol_id (f : PFrame) (c : String) (hc : hasCol f c = true)
    (hnd : (colNames f).Nodup) (hd : dtypeOf f c = PType.tUtf8)
    (hr : RowsOK f) (hcells : ∀ r ∈ f.rows, strAtAll f.cols r c = true) :
    coalesceCol f c = f := by
  have hcols : (coalesceCol f c).cols = f.cols := by
    rw [cols_coalesceCol_of_hasCol f c hc]
    refine Eq.trans (List.map_congr_left ?_) (List.map_id f.cols)
    intro p hp
    by_cases hpc : p.1 = c
    · show (p.1, if p.1 = c then PType.tUtf8 else p.2) = p
      rw [if_pos hpc]
      have hpt : p.2 = PType.tUtf8 := by
        have hl := lookup_self_of_nodup f.cols hnd p hp
        rw [hpc] at hl
        have hl2 := lookup_eq_some_dtype f c hc
        rw [hl] at hl2
        injection hl2 with h2
        rw [h2, hd]
      rw [← hpt]
    · show (p.1, if p.1 = c then PType.tUtf8 else p.2) = p
      rw [if_neg hpc]
  have hrows : (coalesceCol f c).rows = f.rows := by
    rw [rows_coalesceCol_of_hasCol f c hc]
    refine Eq.trans (List.map_congr_left ?_) (List.map_id f.rows)
    intro r hrm
    exact coalesce_row_id c f.cols r (hcells r hrm) (hr r hrm)
  have he : coalesceCol f c =
      { cols := (coalesceCol f c).cols, rows := (coalesceCol f c).rows } := rfl
  rw [he, hcols, hrows]

theorem insertByAsOf_pairwise (cols : List (String × PType)) (r : List PValue) :
    ∀ (l : List (List PValue)),
      l.Pairwise (fun a b => asOfQ cols a ≤ asOfQ cols b) →
      (insertByAsOf cols r l).Pairwise (fun a b => asOfQ cols a ≤ asOfQ cols b) := by
  intro l
  induction l with
  | nil =>
      intro _
      exact List.pairwise_singleton _ _
  | cons x xs ih =>
      intro h
      unfold insertByAsOf
      by_cases hle : asOfQ cols r ≤ asOfQ cols x
      · rw [if_pos hle]
        refine List.Pairwise.cons ?_ h
        intro b hb
        rcases List.mem_cons.mp hb with hbx | hbxs
        · rw [hbx]
          exact hle
        · exact le_trans hle (List.rel_of_pairwise_cons h hbxs)
      · rw [if_neg hle]
        have hxr : asOfQ cols x ≤ asOfQ cols r := le_of_not_le hle
        refine List.Pairwise.cons ?_ (ih (List.Pairwise.of_cons h))
        intro b hb
        have hbmem : b ∈ r :: xs := ((insertByAsOf_perm cols r xs).mem_iff).mp hb
        rcases List.mem_cons.mp hbmem with hbr | hbxs
        · rw [hbr]
          exact hxr
        · exact List.rel_of_pairwise_cons h hbxs

theorem sortRowsByAsOf_pairwise (cols : List (String × PType)) :
    ∀ (l : List (List PValue)),
      (sortRowsByAsOf cols l).Pairwise (fun a b => asOfQ cols a ≤ asOfQ cols b) := by
  intro l
  induction l with
  | nil => exact List.Pairwise.nil
  | cons r rs ih => exact insertByAsOf_pairwise cols r _ ih

theorem sortRowsByAsOf_of_pairwise (cols : List (String × PType)) :
    ∀ (l : List (List PValue)),
      l.Pairwise (fun a b => asOfQ cols a ≤ asOfQ cols b) →
      sortRowsByAsOf cols l = l := by
  intro l
  induction l with
  | nil =>
      intro _
      rfl
  | cons r rs ih =>
      intro h
      show insertByAsOf cols r (sortRowsByAsOf cols rs) = r :: rs
      rw [ih (List.Pairwise.of_cons h)]
      cases rs with
      | nil => rfl
      | cons x xs =>
          unfold insertByAsOf
          rw [if_pos (List.rel_of_pairwise_cons h (List.mem_cons_self x xs))]

theorem sortRowsByAsOf_idem (cols : List (String × PType))
    (l : List (List PValue)) :
    sortRowsByAsOf cols (sortRowsByAsOf cols l) = sortRowsByAsOf cols l :=
  sortRowsByAsOf_of_pairwise cols _ (sortRowsByAsOf_pairwise cols l)

theorem countP_beq_nodup (v : PValue) :
    ∀ (l : List PValue), l.Nodup → v ∈ l →
      l.countP (fun k => k == v) = 1 := by
  intro l
  induction l with
  | nil =>
      intro _ h
      cases h
  | cons x xs ih =>
      intro hnd hm
      rcases List.mem_cons.mp hm with h | h
      · subst h
        rw [List.countP_cons]
        have h0 : xs.countP (fun k => k == v) = 0 := by
          apply List.countP_eq_zero.mpr
          intro k hk
          simp only [beq_iff_eq]
          intro he
          rw [he] at hk
          exact (List.nodup_cons.mp hnd).1 hk
        rw [h0]
        simp
      · rw [List.countP_cons]
        have hx : ¬ ((x == v) = true) := by
          simp only [beq_iff_eq]
          intro he
          rw [← he] at h
          exact (List.nodup_cons.mp hnd).1 h
        rw [if_neg hx, ih (List.nodup_cons.mp hnd).2 h]

/-- C2 counterexample: upserting a batch whose x value at the shared
TimePoint differs from the stored one (2 versus 1) returns changed = false
and leaves the table bit-for-bit identical: the conflicting new value is
discarded by the deduplication and the row-count/byte-size test sees no
difference, refuting "changed = true when any value differs with unchanged
row count". -/
theorem c2_counterexample :
    (save_or_append (some eConflict) nConflict true).changed = false ∧
    (save_or_append (some eConflict) nConflict true).table = eConflict ∧
    getVal eConflict.cols (List.headD eConflict.rows []) "x" = PValue.num 1 ∧
    getVal nConflict.cols (List.headD nConflict.rows []) "x" = PValue.num 2 := by
  with_unfolding_all decide

/-- C2 amended: a first fresh write of a canonical batch (sorted distinct
column names, distinct TimePoints, Date-typed as_of, string-typed and
string-valued validation columns) followed by a second merge write of the
very same batch returns the very same table with changed = false, and the
table holds exactly one row per TimePoint of the batch. -/
theorem c2_second_write_of_identical_content :
    ∀ (N : PFrame),
      RowsOK N → (colNames N).Nodup →
      sortedUnionNames (colNames N) (colNames N) = colNames N →
      (frameAsOfKeys N).Nodup →
      dtypeOf N "as_of" = PType.tDate →
      hasCol N "validation_status" = true →
      dtypeOf N "validation_status" = PType.tUtf8 →
      hasCol N "violations" = true →
      dtypeOf N "violations" = PType.tUtf8 →
      validationCellsStr N = true →
      (save_or_append (some (save_or_append none N false).table) N true =
        { table := (save_or_append none N false).table, changed := false } ∧
       ∀ v ∈ frameAsOfKeys N,
         countAsOf (save_or_append none N false).table v = 1) := by
  intro N hr hnd hu hkeys hdt hvs hvsd hvio hviod hcells
  set T1 : PFrame := sortFrameByAsOf (cast_and_round_numeric N) with hT1def
  have htab : (save_or_append none N false).table = T1 := rfl
  rw [htab]
  have hcT1 : colNames T1 = colNames N := colNames_castRound N
  have hRcr : RowsOK (cast_and_round_numeric N) := RowsOK_castRound N hr
  have hRT1 : RowsOK T1 := RowsOK_sortFrame _ hRcr
  have hndT1 : (colNames T1).Nodup := by
    rw [hcT1]
    exact hnd
  have hnonum : is_numeric_dtype (dtypeOf N "as_of") = false := by
    rw [hdt]
    rfl
  have hT1mem : ∀ r ∈ T1.rows, r ∈ (cast_and_round_numeric N).rows := by
    intro r hrm
    exact ((sortRowsByAsOf_perm _ _).mem_iff).mp hrm
  have hdT1 : ∀ c, hasCol N c = true →
      dtypeOf T1 c = (if is_numeric_dtype (dtypeOf N c) then PType.tFloat32
        else dtypeOf N c) := by
    intro c hc
    exact dtypeOf_castRound N c hc
  have hvsT1 : hasCol T1 "validation_status" = true := by
    rw [hasCol_iff_mem, hcT1, ← hasCol_iff_mem]
    exact hvs
  have hvioT1 : hasCol T1 "violations" = true := by
    rw [hasCol_iff_mem, hcT1, ← hasCol_iff_mem]
    exact hvio
  have hvsdT1 : dtypeOf T1 "validation_status" = PType.tUtf8 := by
    rw [hdT1 _ hvs, hvsd]
    rfl
  have hviodT1 : dtypeOf T1 "violations" = PType.tUtf8 := by
    rw [hdT1 _ hvio, hviod]
    rfl
  -- key multiset facts
  have hpermkeys : List.Perm (frameAsOfKeys T1)
      (frameAsOfKeys (cast_and_round_numeric N)) :=
    (sortRowsByAsOf_perm _ _).map _
  have hkeq : frameAsOfKeys (cast_and_round_numeric N) = frameAsOfKeys N :=
    frameAsOfKeys_castRound N hr hnonum
  have hpermN : List.Perm (frameAsOfKeys T1) (frameAsOfKeys N) := by
    rw [← hkeq]
    exact hpermkeys
  have hkeyT1 : (T1.rows.map (asOfCell T1.cols)).Nodup :=
    (hpermN.nodup_iff).mpr hkeys
  -- validation cells of T1 are strings
  have hcellsN : ∀ r0 ∈ N.rows, strAtAll N.cols r0 "validation_status" = true ∧
      strAtAll N.cols r0 "violations" = true := by
    intro r0 h0
    have h1 := List.all_eq_true.mp hcells r0 h0
    simp only [Bool.and_eq_true] at h1
    exact h1
  have hcellsT1 : ∀ r ∈ T1.rows, strAtAll T1.cols r "validation_status" = true ∧
      strAtAll T1.cols r "violations" = true := by
    intro r hrm
    have hcr : r ∈ (cast_and_round_numeric N).rows := hT1mem r hrm
    have hrowseq : (cast_and_round_numeric N).rows = N.rows.map (fun r =>
        List.zipWith (fun p v => roundCastCell p.2 v) N.cols r) := rfl
    rw [hrowseq] at hcr
    obtain ⟨r0, h0, hre⟩ := List.mem_map.mp hcr
    constructor
    · rw [← hre]
      exact strAtAll_castRound _ N.cols r0 (hcellsN r0 h0).1
    · rw [← hre]
      exact strAtAll_castRound _ N.cols r0 (hcellsN r0 h0).2
  -- the stage-by-stage collapse of the merge pipeline
  have he1 : ensureValidationCols T1 = T1 :=
    ensureValidationCols_of_hasCols T1 hvsT1 hvioT1
  have hfillN : fill_missing_columns N (colNames N) = N := fill_id N hr hnd
  have hfillT1 : fill_missing_columns T1 (colNames N) = T1 := by
    rw [← hcT1]
    exact fill_id T1 hRT1 hndT1
  have hcrT1 : cast_and_round_numeric T1 = T1 := castRound_sort_idem N
  have hschnil : buildCastSchema (colNames N) T1 (cast_and_round_numeric N) = [] := by
    apply buildCastSchema_eq_nil_of_cols_eq
    rfl
  have hkeysub : ∀ y ∈ (cast_and_round_numeric N).rows,
      asOfCell T1.cols y ∈ T1.rows.map (asOfCell T1.cols) := by
    intro y hy
    have h1 : asOfCell T1.cols y ∈ frameAsOfKeys (cast_and_round_numeric N) :=
      List.mem_map_of_mem _ hy
    exact (hpermkeys.mem_iff).mpr h1
  have hdrop1 : uniqueByAsOf T1.cols (T1.rows ++ (cast_and_round_numeric N).rows) =
      uniqueByAsOf T1.cols T1.rows :=
    uniqueByAsOf_append_drop T1.cols T1.rows.length T1.rows _ le_rfl hkeysub
  have hdrop2 : uniqueByAsOf T1.cols T1.rows = T1.rows :=
    uniqueByAsOf_nodup_id T1.cols T1.rows.length T1.rows le_rfl hkeyT1
  have hco1 : coalesceCol T1 "validation_status" = T1 :=
    coalesceCol_id T1 _ hvsT1 hndT1 hvsdT1 hRT1 (fun r h => (hcellsT1 r h).1)
  have hco2 : coalesceCol T1 "violations" = T1 :=
    coalesceCol_id T1 _ hvioT1 hndT1 hviodT1 hRT1 (fun r h => (hcellsT1 r h).2)
  have hcoal : coalesceValidationCols T1 = T1 := by
    unfold coalesceValidationCols
    rw [hco1, hco2]
  have hsortT1 : sortFrameByAsOf T1 = T1 := by
    have hs1 : sortFrameByAsOf T1 =
        { cols := T1.cols, rows := sortRowsByAsOf T1.cols T1.rows } := rfl
    rw [hs1]
    have hs2 : sortRowsByAsOf T1.cols T1.rows = T1.rows := by
      show sortRowsByAsOf (cast_and_round_numeric N).cols
        (sortRowsByAsOf (cast_and_round_numeric N).cols
          (cast_and_round_numeric N).rows) = _
      rw [sortRowsByAsOf_idem]
      rfl
    rw [hs2]
  have hMP : mergePipeline T1 N = T1 := by
    unfold mergePipeline
    simp only []
    rw [he1, hcT1, hu, hfillN, hfillT1, hcrT1, hschnil,
      castFrame_nil (cast_and_round_numeric N) hRcr, castFrame_nil T1 hRT1,
      hdrop1, hdrop2]
    have heta : ({ cols := T1.cols, rows := T1.rows } : PFrame) = T1 := rfl
    rw [heta, hcoal, hsortT1]
  constructor
  · show (if (mergePipeline T1 N).height ≠ T1.height
        then ({ table := mergePipeline T1 N, changed := true } : SaveResult)
        else { table := mergePipeline T1 N,
               changed := decide (byteSize (mergePipeline T1 N) ≠ byteSize T1) }) =
      { table := T1, changed := false }
    rw [hMP, if_neg (fun h => h rfl)]
    simp
  · intro v hv
    show countAsOf T1 v = 1
    unfold countAsOf
    rw [List.Perm.countP_eq _ hpermN]
    exact countP_beq_nodup v (frameAsOfKeys N) hkeys hv

/-- C2 amended, witness: a concrete canonical one-row batch written twice
comes back unchanged with changed = false on the second write. -/
theorem c2_second_write_witness :
    RowsOK nCanon ∧
    save_or_append (some (save_or_append none nCanon false).table) nCanon true =
      { table := (save_or_append none nCanon false).table, changed := false } :=
  ⟨by with_unfolding_all decide,
   (c2_second_write_of_identical_content nCanon (by with_unfolding_all decide)
     (by with_unfolding_all decide) (by with_unfolding_all decide)
     (by with_unfolding_all decide) (by with_unfolding_all decide)
     (by with_unfolding_all decide) (by with_unfolding_all decide)
     (by with_unfolding_all decide) (by with_unfolding_all decide)
     (by with_unfolding_all decide)).1⟩

end DVMax
